import Mathlib

/-!
Shallow embedding of the Quine-McCluskey boolean minimizer from
`Quine_McCluskey_Algorithm.cpp`, together with proofs of the specification
claims about it.

Modelling conventions:
* C++ `std::string` is modelled by Lean `String`; character-level reasoning
  goes through `String.data : List Char`.
* C++ `int` terms are modelled by `Int` (the validation checks `term < 0`).
  `numVars` is modelled by `Nat`: the C++ code evaluates `1 << numVars`,
  which is undefined behaviour for negative `numVars`, so only the
  non-negative domain is modelled.
* The two `while` loops of the source (the merge loop of
  `findPrimeImplicants` and the greedy loop of `findMinimalCover`) are
  modelled with an explicit fuel argument so that every definition stays
  executable by kernel reduction.  The merge loop gets fuel `numVars + 1`
  (proved sufficient below: each merging round increases the common dash
  count of all patterns by one, and the dash count is bounded by the
  pattern length `numVars`).  The greedy loop gets fuel
  `remainingPrimes.length`, which matches the source exactly because each
  iteration of the C++ loop erases exactly one element of
  `remainingPrimes`.
* `std::sort` followed by `std::unique`-erase is modelled by a stable
  insertion sort followed by removal of adjacent duplicates; for the lists
  the source sorts this yields the same result the C++ code produces.
* `std::map<int, vector<Implicant>>` (ordered map, iterated in key order)
  is modelled by an association list sorted by key.
-/

/-- The apostrophe character used as the complement marker in the output. -/
def apos : Char := Char.ofNat 39

/-- Stable insertion into a list sorted by the strict order `lt`: the new
element goes after all existing elements it does not strictly precede. -/
def insertBy {α : Type} (lt : α → α → Bool) (x : α) : List α → List α
  | [] => [x]
  | y :: ys => if lt x y then x :: y :: ys else y :: insertBy lt x ys

/-- Stable insertion sort; models `std::sort` for the comparisons used by
the source (the source only ever sorts lists whose sort order is
determined up to equal elements, so stability is immaterial there). -/
def sortBy {α : Type} (lt : α → α → Bool) (l : List α) : List α :=
  l.foldl (fun acc x => insertBy lt x acc) []

/-- Tail of adjacent-duplicate removal: `a` is the last kept element;
elements equivalent to it are dropped until a fresh one is kept. -/
def dedupAdjFrom {α : Type} (eqv : α → α → Bool) : α → List α → List α
  | _, [] => []
  | a, b :: rest =>
      if eqv a b then dedupAdjFrom eqv a rest else b :: dedupAdjFrom eqv b rest

/-- Removal of adjacent duplicates (modulo the equivalence `eqv`), keeping
the first element of each run; models `erase(unique(...), end)`. -/
def dedupAdjBy {α : Type} (eqv : α → α → Bool) : List α → List α
  | [] => []
  | a :: rest => a :: dedupAdjFrom eqv a rest

/-- Lexicographic order on character lists: models C++ `std::string`
`operator<` (which compares characters left to right and breaks the tie
by length). -/
def strLt : List Char → List Char → Bool
  | _, [] => false
  | [], _ :: _ => true
  | a :: as, b :: bs => if a < b then true else if b < a then false else strLt as bs

/-- `intToBinary` from the source: the `numVars`-bit binary string of `n`,
most significant bit first.  The C++ loop runs `i` from `numVars - 1` down
to `0` appending bit `i`, so string position `j` holds bit
`numVars - 1 - j`.  All call sites pass a validated non-negative `n`, for
which `(n >> i) & 1` agrees with `n.toNat.testBit i`. -/
def intToBinary (n : Int) (numVars : Nat) : String :=
  String.mk ((List.range numVars).map fun j =>
    if n.toNat.testBit (numVars - 1 - j) then '1' else '0')

/-- The `Implicant` structure from the source. -/
structure Implicant where
  minterms : List Int
  binary : String
  isPrime : Bool
  isEssential : Bool
deriving Repr, DecidableEq

/-- Number of positions at which two equal-length character lists differ. -/
def diffCount (xs ys : List Char) : Nat :=
  ((xs.zip ys).filter fun p => p.1 ≠ p.2).length

/-- `Implicant::canMerge`: equal lengths and exactly one differing
position (the C++ early exit at `diffCount > 1` does not change the
result). -/
def canMerge (a b : Implicant) : Bool :=
  a.binary.data.length == b.binary.data.length &&
    diffCount a.binary.data b.binary.data == 1

/-- The merged pattern: `-` at the differing position, the common symbol
elsewhere (the merging constructor's loop). -/
def mergeBin (xs ys : List Char) : List Char :=
  (xs.zip ys).map fun p => if p.1 ≠ p.2 then '-' else p.1

/-- The merging constructor `Implicant(const Implicant&, const Implicant&)`:
concatenate and sort the two minterm lists, merge the patterns. -/
def Implicant.merge (a b : Implicant) : Implicant :=
  { minterms := sortBy (fun x y => decide (x < y)) (a.minterms ++ b.minterms)
    binary := String.mk (mergeBin a.binary.data b.binary.data)
    isPrime := true
    isEssential := false }

/-- `Implicant::countOnes`. -/
def Implicant.countOnes (imp : Implicant) : Nat :=
  imp.binary.data.count '1'

/-- Number of `-` symbols in a pattern (used by the invariants; not a
source function). -/
def dashCount (xs : List Char) : Nat := xs.count '-'

/-- Pattern/term-string matching: every non-`-` pattern position matches
the term's binary digit. -/
def coversC (pat tb : List Char) : Bool :=
  (pat.zip tb).all fun p => p.1 == '-' || p.1 == p.2

/-- `Implicant::covers`.  (When the pattern and the term string have equal
length — the only reachable case — the positionwise C++ loop is exactly
this `zip`.) -/
def Implicant.covers (imp : Implicant) (term : Int) (numVars : Nat) : Bool :=
  coversC imp.binary.data (intToBinary term numVars).data

/-- The single-term constructor `Implicant(int term, int numVars)`. -/
def mkImplicant (term : Int) (numVars : Nat) : Implicant :=
  { minterms := [term], binary := intToBinary term numVars,
    isPrime := true, isEssential := false }

/-- The variable names `A`, `B`, ... set up by `initializeVarNames`. -/
def varNamesFor (numVars : Nat) : List Char :=
  (List.range numVars).map fun i => Char.ofNat (65 + i)

/-- Character output of `binaryToTerm` for one (pattern symbol, variable
name) pair sequence: `'0'` contributes the name plus an apostrophe, `'1'`
the bare name, anything else (i.e. `'-'`) nothing. -/
def termChars : List (Char × Char) → List Char
  | [] => []
  | (c, v) :: rest =>
      (if c = '0' then [v, apos] else if c = '1' then [v] else []) ++ termChars rest

/-- `QuineMcCluskey::binaryToTerm`. -/
def binaryToTerm (varNames : List Char) (binary : String) : String :=
  String.mk (termChars (binary.data.zip varNames))

/-- Ordered map insertion: append `imp` to the vector at key `k`
(`groups[k].push_back(imp)`), creating the entry if absent; the
association list stays sorted by key. -/
def addToGroup (k : Nat) (imp : Implicant) :
    List (Nat × List Implicant) → List (Nat × List Implicant)
  | [] => [(k, [imp])]
  | (k₀, v) :: rest =>
      if k = k₀ then (k₀, v ++ [imp]) :: rest
      else if k < k₀ then (k, [imp]) :: (k₀, v) :: rest
      else (k₀, v) :: addToGroup k imp rest

/-- Insert a list of implicants into an empty map, each keyed by its
one-count (the construction of `newGroups`, and of the initial groups). -/
def buildGroups (l : List Implicant) : List (Nat × List Implicant) :=
  l.foldl (fun m imp => addToGroup imp.countOnes imp m) []

/-- The initial groups of `findPrimeImplicants`. -/
def initGroups (numVars : Nat) (terms : List Int) : List (Nat × List Implicant) :=
  buildGroups (terms.map fun t => mkImplicant t numVars)

/-- All implicants of a group map, in map iteration order. -/
def flatGroups (gs : List (Nat × List Implicant)) : List Implicant :=
  (gs.map fun p => p.2).flatten

/-- All merges of one adjacent-group pair (`group1[j]` with `group2[k]`,
`j` outer, `k` inner). -/
def pairMerges (g₁ g₂ : List Implicant) : List Implicant :=
  g₁.foldr (fun a acc =>
    (g₂.filterMap fun b => if canMerge a b then some (a.merge b) else none) ++ acc) []

/-- All merged implicants produced by one round, in the order the C++
nested loops discover them: adjacent key pairs in ascending key order
(pairs whose keys do not differ by exactly 1 are skipped). -/
def roundMerges : List (Nat × List Implicant) → List Implicant
  | (k₁, g₁) :: (k₂, g₂) :: rest =>
      (if k₂ = k₁ + 1 then pairMerges g₁ g₂ else []) ++ roundMerges ((k₂, g₂) :: rest)
  | _ => []

/-- Whether `imp` (sitting in the group keyed `k`) gets marked by a merge
with the next group: the next key is `k + 1` and some element there can
merge with `imp`. -/
def mergesNext (imp : Implicant) (k : Nat) : Option (Nat × List Implicant) → Bool
  | some (k', g') => k' == k + 1 && g'.any fun b => canMerge imp b
  | none => false

/-- Whether `imp` (sitting in the group keyed `k`) gets marked by a merge
with the previous group. -/
def mergesPrev (imp : Implicant) (k : Nat) : Option (Nat × List Implicant) → Bool
  | some (k', g') => k == k' + 1 && g'.any fun a => canMerge a imp
  | none => false

/-- The unmarked implicants of a round, collected in map iteration order.
In the source, `marked[...]` is set for `group1[j]` and `group2[k]`
exactly when a merge between adjacent groups succeeds, so an implicant is
unmarked iff it merges with nothing in the adjacent next group and with
nothing in the adjacent previous group. -/
def collectUnmarked (prev : Option (Nat × List Implicant)) :
    List (Nat × List Implicant) → List Implicant
  | [] => []
  | (k, g) :: rest =>
      (g.filter fun imp => !(mergesNext imp k rest.head? || mergesPrev imp k prev))
        ++ collectUnmarked (some (k, g)) rest

/-- The `while (changed)` loop of `findPrimeImplicants`.  One iteration:
compute this round's merges, append this round's unmarked implicants to
the accumulating prime list, and continue with the new groups iff at
least one merge happened.  `fuel` bounds the number of rounds; it is
proved below that `numVars + 1` rounds always suffice. -/
def qmLoop : Nat → List (Nat × List Implicant) → List Implicant → List Implicant
  | 0, _, acc => acc
  | fuel + 1, gs, acc =>
      let merges := roundMerges gs
      let acc' := acc ++ collectUnmarked none gs
      if merges.isEmpty then acc'
      else qmLoop fuel (buildGroups merges) acc'

/-- `removeDuplicates`: sort by pattern string, erase adjacent
equal-pattern duplicates. -/
def removeDuplicates (implicants : List Implicant) : List Implicant :=
  dedupAdjBy (fun a b => a.binary == b.binary)
    (sortBy (fun a b => strLt a.binary.data b.binary.data) implicants)

/-- `findPrimeImplicants`, with the merge-round fuel made explicit. -/
def findPrimeImplicantsFuel (fuel numVars : Nat) (terms : List Int) : List Implicant :=
  if terms.isEmpty then []
  else removeDuplicates (qmLoop fuel (initGroups numVars terms) [])

/-- `QuineMcCluskey::findPrimeImplicants` (fuel `numVars + 1` is proved
sufficient below). -/
def findPrimeImplicants (numVars : Nat) (terms : List Int) : List Implicant :=
  findPrimeImplicantsFuel (numVars + 1) numVars terms

/-- `QuineMcCluskey::findEssentialPrimes`: for each required minterm in
input order, if exactly one prime covers it, add a copy of that prime
(flagged essential) unless an equal-pattern implicant is already
present. -/
def findEssentialPrimes (numVars : Nat) (minterms : List Int)
    (primes : List Implicant) : List Implicant :=
  minterms.foldl (fun ess m =>
    match primes.filter (fun imp => imp.covers m numVars) with
    | [e] =>
        if ess.any (fun ep => ep.binary == e.binary) then ess
        else ess ++ [{ e with isEssential := true }]
    | _ => ess) []

/-- The number of currently-uncovered minterms an implicant covers, as a
C++ `int`. -/
def coverCountI (numVars : Nat) (uncovered : List Int) (imp : Implicant) : Int :=
  ((uncovered.filter fun m => imp.covers m numVars).length : Nat)

/-- The argmax scan of the greedy loop: `maxCover`/`bestIdx` start at
`-1`/`-1` and are updated on strict improvement, scanning the remaining
primes in index order. -/
def bestPickAux (numVars : Nat) (uncovered : List Int) :
    List Implicant → Int → Int × Int → Int × Int
  | [], _, best => best
  | imp :: rest, i, (mc, bi) =>
      let c := coverCountI numVars uncovered imp
      bestPickAux numVars uncovered rest (i + 1) (if mc < c then (c, i) else (mc, bi))

/-- The `(maxCover, bestIdx)` pair computed by one pass of the greedy
loop's inner scan. -/
def bestPick (numVars : Nat) (uncovered : List Int) (remaining : List Implicant) :
    Int × Int :=
  bestPickAux numVars uncovered remaining 0 (-1, -1)

/-- The greedy covering loop of `findMinimalCover`.  Each C++ iteration
erases exactly one element of `remainingPrimes`, so running it with fuel
`remainingPrimes.length` is exact.  (`bestIdx ≥ 0` always holds when
`remainingPrimes` is non-empty, because any coverage count is `≥ 0 > -1`;
the `else` fallback is unreachable.) -/
def greedyLoop (numVars : Nat) :
    Nat → List Int → List Implicant → List Implicant → List Implicant
  | 0, _, _, cover => cover
  | fuel + 1, uncovered, remaining, cover =>
      if uncovered.isEmpty || remaining.isEmpty then cover
      else
        match remaining[(bestPick numVars uncovered remaining).2.toNat]? with
        | some best =>
            greedyLoop numVars fuel
              (uncovered.filter fun m => !best.covers m numVars)
              (remaining.eraseIdx (bestPick numVars uncovered remaining).2.toNat)
              (cover ++ [best])
        | none => cover

/-- The `uncoveredMinterms` set of `findMinimalCover`: the required
minterms no essential prime covers, held as a `std::set<int>` (sorted,
deduplicated). -/
def uncoveredOf (numVars : Nat) (minterms : List Int)
    (essentialPrimes : List Implicant) : List Int :=
  dedupAdjBy (fun a b => a == b)
    (sortBy (fun x y => decide (x < y))
      (minterms.filter fun m => !essentialPrimes.any fun imp => imp.covers m numVars))

/-- The `remainingPrimes` vector of `findMinimalCover`: the primes whose
pattern does not match any essential prime's pattern. -/
def remainingOf (essentialPrimes allPrimes : List Implicant) : List Implicant :=
  allPrimes.filter fun imp =>
    !essentialPrimes.any fun ep => ep.binary == imp.binary

/-- `QuineMcCluskey::findMinimalCover`.  Note the early return: when the
essential primes already cover everything, the cover is returned
unsorted. -/
def findMinimalCover (numVars : Nat) (minterms : List Int)
    (essentialPrimes allPrimes : List Implicant) : List Implicant :=
  if (uncoveredOf numVars minterms essentialPrimes).isEmpty then essentialPrimes
  else
    sortBy (fun a b => strLt a.binary.data b.binary.data)
      (greedyLoop numVars (remainingOf essentialPrimes allPrimes).length
        (uncoveredOf numVars minterms essentialPrimes)
        (remainingOf essentialPrimes allPrimes) essentialPrimes)

/-- The product-term concatenation loop of `formatSOP`: each non-empty
term is emitted, followed by `" + "` unless it is at the last index. -/
def sopTerms (varNames : List Char) : List Implicant → String
  | [] => ""
  | [imp] => binaryToTerm varNames imp.binary
  | imp :: rest =>
      let term := binaryToTerm varNames imp.binary
      (if term.isEmpty then "" else term ++ " + ") ++ sopTerms varNames rest

/-- `QuineMcCluskey::formatSOP`.  (The C++ computes the concatenation once
into a local `result`; it is written out twice here, which does not change
the value.) -/
def formatSOP (varNames : List Char) (cover : List Implicant) : String :=
  if cover.isEmpty then "0"
  else if cover.any (fun imp =>
      !imp.binary.data.contains '0' && !imp.binary.data.contains '1') then "1"
  else if (sopTerms varNames cover).isEmpty then "1"
  else sopTerms varNames cover

/-- The `QuineMcCluskey` object state: the fields the constructor
initializes.  `minimize` reads these fields and writes none of them. -/
structure QM where
  numVars : Nat
  minterms : List Int
  dontcares : List Int
  varNames : List Char
deriving Repr, DecidableEq

/-- The constructor `QuineMcCluskey(vars, m, dc)` (it calls
`initializeVarNames`). -/
def mkQM (vars : Nat) (m : List Int) (dc : List Int := []) : QM :=
  ⟨vars, m, dc, varNamesFor vars⟩

/-- The error taxonomy of `minimize` (one constructor per `throw`
site). -/
inductive QMErr where
  | varLimit : QMErr
  | mintermRange : Int → QMErr
  | dontCareRange : Int → QMErr
deriving Repr, DecidableEq

/-- Whether an error is a `TermOutOfRange` failure in the specification's
taxonomy. -/
def QMErr.isTermRange : QMErr → Bool
  | .varLimit => false
  | .mintermRange _ => true
  | .dontCareRange _ => true

/-- The deduplicated sorted union `allTerms` of minterms and don't-cares
computed by `minimize`. -/
def allTermsOf (q : QM) : List Int :=
  dedupAdjBy (fun a b => a == b)
    (sortBy (fun x y => decide (x < y)) (q.minterms ++ q.dontcares))

/-- The prime implicant list `minimize` computes, with explicit merge
fuel. -/
def qmPrimesFuel (fuel : Nat) (q : QM) : List Implicant :=
  findPrimeImplicantsFuel fuel q.numVars (allTermsOf q)

/-- The prime implicant list `minimize` computes. -/
def qmPrimes (q : QM) : List Implicant := qmPrimesFuel (q.numVars + 1) q

/-- The essential prime list `minimize` computes. -/
def qmEssentials (q : QM) : List Implicant :=
  findEssentialPrimes q.numVars q.minterms (qmPrimes q)

/-- The final cover `minimize` computes, with explicit merge fuel. -/
def qmCoverFuel (fuel : Nat) (q : QM) : List Implicant :=
  findMinimalCover q.numVars q.minterms
    (findEssentialPrimes q.numVars q.minterms (qmPrimesFuel fuel q))
    (qmPrimesFuel fuel q)

/-- The final cover `minimize` computes. -/
def qmCover (q : QM) : List Implicant := qmCoverFuel (q.numVars + 1) q

/-- `QuineMcCluskey::minimize`, with explicit merge fuel.  The method
reads the object's fields and assigns none of them, which the embedding
records by returning the unchanged state alongside the result.  The
range checks scan `minterms` then `dontcares` and throw at the first
offending term. -/
def minimizeFuel (fuel : Nat) (q : QM) : Except QMErr String × QM :=
  if q.numVars > 8 then (.error .varLimit, q)
  else
    match q.minterms.find?
        (fun t => decide (t < 0) || decide ((2 : Int) ^ q.numVars - 1 < t)) with
    | some t => (.error (.mintermRange t), q)
    | none =>
        match q.dontcares.find?
            (fun t => decide (t < 0) || decide ((2 : Int) ^ q.numVars - 1 < t)) with
        | some t => (.error (.dontCareRange t), q)
        | none => (.ok (formatSOP q.varNames (qmCoverFuel fuel q)), q)

/-- `QuineMcCluskey::minimize`. -/
def minimize (q : QM) : Except QMErr String × QM := minimizeFuel (q.numVars + 1) q

/-- The value `minimize` returns (or the exception it throws). -/
def minimizeResult (q : QM) : Except QMErr String := (minimize q).1

/-- The value `minimize` returns, with explicit merge fuel. -/
def minimizeFuelResult (fuel : Nat) (q : QM) : Except QMErr String :=
  (minimizeFuel fuel q).1

/-- The truth value of variable `i` (0-indexed from the most significant
bit) of input row `t`: bit `numVars - 1 - i` of `t`.  The letter `c`
denotes variable `c - 'A'`. -/
def varBit (numVars : Nat) (t : Int) (c : Char) : Bool :=
  t.toNat.testBit (numVars - 1 - (c.toNat - 65))

/-- Evaluator for the textual SOP expression: `acc` is the value of the
product term being read; `" + "` (always letter-terminated on the left)
ORs the finished product with the rest; a letter followed by an
apostrophe contributes the complemented variable, a bare letter the plain
variable. -/
def evalSOPAux (numVars : Nat) (t : Int) : Bool → List Char → Bool
  | acc, [] => acc
  | acc, c :: rest =>
      if c = ' ' then
        match rest with
        | _ :: _ :: rest₃ => acc || evalSOPAux numVars t true rest₃
        | _ => acc
      else
        match rest with
        | d :: rest₂ =>
            if d = apos then evalSOPAux numVars t (acc && !varBit numVars t c) rest₂
            else evalSOPAux numVars t (acc && varBit numVars t c) (d :: rest₂)
        | [] => acc && varBit numVars t c

/-- Evaluate a formatted SOP string as a Boolean function at input row
`t`: the constants `"0"`/`"1"` denote false/true, otherwise the string is
an OR of product terms of literals. -/
def sopEval (numVars : Nat) (s : String) (t : Int) : Bool :=
  if s = "0" then false
  else if s = "1" then true
  else evalSOPAux numVars t true s.data

/-- A pattern symbol of the ternary alphabet. -/
def validChar (c : Char) : Prop := c = '0' ∨ c = '1' ∨ c = '-'

/-- The input row range `[0, 2^numVars - 1]`. -/
def inRange (numVars : Nat) (t : Int) : Prop := 0 ≤ t ∧ t < 2 ^ numVars

/-- Well-formedness of an implicant produced while processing the input
term list `allTerms` with `numVars` variables: the pattern has the right
length over the ternary alphabet, the covered-minterm list draws from the
input terms, and — the central semantic invariant — an in-range row is
covered by the pattern exactly when it is in the covered-minterm list. -/
def GoodImp (numVars : Nat) (allTerms : List Int) (imp : Implicant) : Prop :=
  imp.binary.data.length = numVars ∧
  (∀ c ∈ imp.binary.data, validChar c) ∧
  (∀ t ∈ imp.minterms, t ∈ allTerms) ∧
  (∀ t : Int, inRange numVars t → (imp.covers t numVars = true ↔ t ∈ imp.minterms))

/-- The group map at the start of round `k` of the merge loop (round 0 =
the initial grouping).  While the C++ loop is still running this is
exactly its `groups` variable; after the loop has stopped it is the empty
map (a round without merges produces an empty `newGroups`). -/
def groupsAt (numVars : Nat) (terms : List Int) : Nat → List (Nat × List Implicant)
  | 0 => initGroups numVars terms
  | k + 1 => buildGroups (roundMerges (groupsAt numVars terms k))

/-- Join a list of character lists with a separator (used to state the
formatter's contract). -/
def joinSep (sep : List Char) : List (List Char) → List Char
  | [] => []
  | [x] => x
  | x :: y :: rest => x ++ sep ++ joinSep sep (y :: rest)

/-- The product-term rendering rule as the specification words it:
position `i` (0-indexed from the most significant bit) maps to letter
`'A' + i`; symbol `'1'` emits the plain letter, `'0'` the letter followed
by an apostrophe, `'-'` nothing. -/
def specRenderTerm (numVars : Nat) (pat : List Char) : List Char :=
  ((List.range numVars).map fun i =>
    if pat[i]? = some '1' then [Char.ofNat (65 + i)]
    else if pat[i]? = some '0' then [Char.ofNat (65 + i), apos]
    else []).flatten

example : minimizeResult (mkQM 2 [0, 1, 2, 3]) = .ok "1" := rfl
example : minimizeResult (mkQM 2 []) = .ok "0" := rfl
example : minimizeResult (mkQM 3 [0, 2, 4, 6] [1, 5]) =
    .ok (String.mk ['C', apos]) := rfl
example : minimizeResult (mkQM 0 [] []) = .ok "0" := rfl
example : minimizeResult (mkQM 9 [] []) = .error .varLimit := rfl
example : minimizeResult (mkQM 2 [5] []) = .error (.mintermRange 5) := rfl
example : minimizeResult (mkQM 2 [0, 1, 2] []) =
    .ok (String.mk ['A', apos, ' ', '+', ' ', 'B', apos]) := rfl
example : sopEval 2 (String.mk ['A', apos, ' ', '+', ' ', 'B', apos]) 3 = false := by
  decide
example : sopEval 2 (String.mk ['A', apos, ' ', '+', ' ', 'B', apos]) 1 = true := by
  decide

/-! ### Generic list lemmas -/

theorem mem_insertBy {α : Type} (lt : α → α → Bool) (x y : α) (l : List α) :
    y ∈ insertBy lt x l ↔ y = x ∨ y ∈ l := by
  induction l with
  | nil => simp [insertBy]
  | cons z zs ih =>
      simp only [insertBy]
      by_cases h : lt x z
      · simp [h]
      · rw [if_neg h]
        simp only [List.mem_cons, ih]
        tauto

theorem mem_foldl_insertBy {α : Type} (lt : α → α → Bool) (y : α) (l acc : List α) :
    y ∈ l.foldl (fun acc x => insertBy lt x acc) acc ↔ y ∈ l ∨ y ∈ acc := by
  induction l generalizing acc with
  | nil => simp
  | cons z zs ih =>
      simp only [List.foldl_cons, ih, mem_insertBy, List.mem_cons]
      tauto

theorem mem_sortBy {α : Type} (lt : α → α → Bool) (y : α) (l : List α) :
    y ∈ sortBy lt l ↔ y ∈ l := by
  simp [sortBy, mem_foldl_insertBy]

theorem mem_of_mem_dedupAdjFrom {α : Type} (eqv : α → α → Bool) (a : α) (l : List α)
    (y : α) (h : y ∈ dedupAdjFrom eqv a l) : y ∈ l := by
  induction l generalizing a with
  | nil => simpa [dedupAdjFrom] using h
  | cons b rest ih =>
      simp only [dedupAdjFrom] at h
      by_cases hb : eqv a b
      · simp only [hb, if_pos] at h
        exact List.mem_cons_of_mem _ (ih a h)
      · simp only [hb, if_neg, Bool.false_eq_true, not_false_iff, List.mem_cons] at h
        rcases h with h | h
        · exact h ▸ List.mem_cons_self _ _
        · exact List.mem_cons_of_mem _ (ih b h)

theorem mem_of_mem_dedupAdjBy {α : Type} (eqv : α → α → Bool) (l : List α)
    (y : α) (h : y ∈ dedupAdjBy eqv l) : y ∈ l := by
  cases l with
  | nil => simpa [dedupAdjBy] using h
  | cons a rest =>
      simp only [dedupAdjBy, List.mem_cons] at h
      rcases h with h | h
      · exact h ▸ List.mem_cons_self _ _
      · exact List.mem_cons_of_mem _ (mem_of_mem_dedupAdjFrom eqv a rest y h)

theorem dedupAdjFrom_key_complete {α β : Type} (eqv : α → α → Bool) (f : α → β)
    (heqv : ∀ a b, eqv a b = true → f a = f b) (a : α) (l : List α) (x : α)
    (hx : x ∈ l) :
    f x = f a ∨ ∃ y ∈ dedupAdjFrom eqv a l, f y = f x := by
  induction l generalizing a with
  | nil => cases hx
  | cons b rest ih =>
      simp only [dedupAdjFrom]
      rcases List.mem_cons.mp hx with rfl | hx
      · by_cases hb : eqv a x
        · exact Or.inl (heqv a x hb).symm
        · refine Or.inr ⟨x, ?_, rfl⟩
          simp [hb]
      · by_cases hb : eqv a b
        · rcases ih a hx with h | ⟨y, hy, hfy⟩
          · exact Or.inl h
          · exact Or.inr ⟨y, by simp [hb, hy], hfy⟩
        · rcases ih b hx with h | ⟨y, hy, hfy⟩
          · exact Or.inr ⟨b, by simp [hb], h.symm⟩
          · exact Or.inr ⟨y, by simp [hb, hy], hfy⟩

theorem dedupAdjBy_key_complete {α β : Type} (eqv : α → α → Bool) (f : α → β)
    (heqv : ∀ a b, eqv a b = true → f a = f b) (l : List α) (x : α) (hx : x ∈ l) :
    ∃ y ∈ dedupAdjBy eqv l, f y = f x := by
  cases l with
  | nil => cases hx
  | cons a rest =>
      simp only [dedupAdjBy]
      rcases List.mem_cons.mp hx with rfl | hx
      · exact ⟨x, List.mem_cons_self _ _, rfl⟩
      · rcases dedupAdjFrom_key_complete eqv f heqv a rest x hx with h | ⟨y, hy, hfy⟩
        · exact ⟨a, List.mem_cons_self _ _, h.symm⟩
        · exact ⟨y, List.mem_cons_of_mem _ hy, hfy⟩

theorem mem_dedupAdjBy_int (l : List Int) (x : Int) :
    x ∈ dedupAdjBy (fun a b => a == b) l ↔ x ∈ l := by
  constructor
  · exact mem_of_mem_dedupAdjBy _ l x
  · intro hx
    rcases dedupAdjBy_key_complete (fun a b : Int => a == b) id
      (fun a b h => by simpa using h) l x hx with ⟨y, hy, hfy⟩
    simpa [show y = x from hfy] using hy

/-! ### `intToBinary` -/

theorem length_intToBinary (n : Int) (nv : Nat) :
    (intToBinary n nv).data.length = nv := by
  simp [intToBinary]

theorem intToBinary_chars (n : Int) (nv : Nat) :
    ∀ c ∈ (intToBinary n nv).data, c = '0' ∨ c = '1' := by
  intro c hc
  simp only [intToBinary, List.mem_map] at hc
  rcases hc with ⟨j, _, rfl⟩
  by_cases h : n.toNat.testBit (nv - 1 - j) <;> simp [h]

theorem intToBinary_getElem (n : Int) (nv j : Nat) (hj : j < nv) :
    (intToBinary n nv).data[j]? =
      some (if n.toNat.testBit (nv - 1 - j) then '1' else '0') := by
  simp [intToBinary, hj]

theorem intToBinary_inj (nv : Nat) (a b : Int) (ha : inRange nv a)
    (hb : inRange nv b)
    (hdata : (intToBinary a nv).data = (intToBinary b nv).data) : a = b := by
  obtain ⟨ha0, ha2⟩ := ha
  obtain ⟨hb0, hb2⟩ := hb
  have hcast : ((2 ^ nv : Nat) : Int) = (2 : Int) ^ nv := by push_cast; ring
  have hanat : a.toNat < 2 ^ nv := by omega
  have hbnat : b.toNat < 2 ^ nv := by omega
  have hbits : ∀ i, a.toNat.testBit i = b.toNat.testBit i := by
    intro i
    by_cases hi : i < nv
    · have hj : nv - 1 - (nv - 1 - i) = i := by omega
      have hjlt : nv - 1 - i < nv := by omega
      have := congrArg (fun l => l[nv - 1 - i]?) hdata
      simp only [intToBinary_getElem _ _ _ hjlt, hj] at this
      by_cases hA : a.toNat.testBit i <;> by_cases hB : b.toNat.testBit i <;>
        simp [hA, hB] at this ⊢
    · have hA : a.toNat.testBit i = false :=
        Nat.testBit_eq_false_of_lt (lt_of_lt_of_le hanat (Nat.pow_le_pow_right (by norm_num) (by omega)))
      have hB : b.toNat.testBit i = false :=
        Nat.testBit_eq_false_of_lt (lt_of_lt_of_le hbnat (Nat.pow_le_pow_right (by norm_num) (by omega)))
      rw [hA, hB]
  have : a.toNat = b.toNat := Nat.eq_of_testBit_eq hbits
  omega

/-! ### Pattern matching and merging -/

theorem coversC_nil (tb : List Char) : coversC [] tb = true := rfl

theorem coversC_cons (x : Char) (xs : List Char) (c : Char) (tb : List Char) :
    coversC (x :: xs) (c :: tb) = ((x == '-' || x == c) && coversC xs tb) := by
  simp [coversC]

theorem diffCount_cons (x y : Char) (xs ys : List Char) :
    diffCount (x :: xs) (y :: ys) = (if x = y then 0 else 1) + diffCount xs ys := by
  by_cases h : x = y <;> simp [diffCount, h, Nat.add_comm]

theorem diffCount_zero_eq (xs : List Char) :
    ∀ ys : List Char, xs.length = ys.length → diffCount xs ys = 0 → xs = ys := by
  induction xs with
  | nil =>
      intro ys hlen _
      cases ys with
      | nil => rfl
      | cons y ys => cases hlen
  | cons x xs ih =>
      intro ys hlen hd
      cases ys with
      | nil => cases hlen
      | cons y ys =>
          rw [diffCount_cons] at hd
          by_cases hxy : x = y
          · rw [if_pos hxy, Nat.zero_add] at hd
            rw [hxy, ih ys (by simpa using hlen) hd]
          · rw [if_neg hxy] at hd
            omega

theorem mergeBin_self (xs : List Char) : mergeBin xs xs = xs := by
  induction xs with
  | nil => rfl
  | cons x xs ih => simp [mergeBin] at ih ⊢; exact ih

theorem mergeBin_cons (x y : Char) (xs ys : List Char) :
    mergeBin (x :: xs) (y :: ys) =
      (if x ≠ y then '-' else x) :: mergeBin xs ys := by
  simp [mergeBin]

theorem length_mergeBin (xs : List Char) :
    ∀ ys : List Char, xs.length = ys.length → (mergeBin xs ys).length = xs.length := by
  induction xs with
  | nil => intro ys _; rfl
  | cons x xs ih =>
      intro ys hlen
      cases ys with
      | nil => cases hlen
      | cons y ys => simp [mergeBin_cons, ih ys (by simpa using hlen)]

theorem mergeBin_chars (xs : List Char) :
    ∀ ys : List Char, (∀ c ∈ xs, validChar c) →
      ∀ c ∈ mergeBin xs ys, validChar c := by
  induction xs with
  | nil => intro ys _ c hc; cases hc
  | cons x xs ih =>
      intro ys hx c hc
      cases ys with
      | nil => cases hc
      | cons y ys =>
          rw [mergeBin_cons] at hc
          rcases List.mem_cons.mp hc with rfl | hc
          · by_cases hxy : x = y
            · simpa [hxy] using hx x (List.mem_cons_self _ _)
            · simp [hxy, validChar]
          · exact ih ys (fun c hcx => hx c (List.mem_cons_of_mem _ hcx)) c hc

theorem dashCount_cons (x : Char) (xs : List Char) :
    dashCount (x :: xs) = (if x = '-' then 1 else 0) + dashCount xs := by
  simp only [dashCount, List.count_cons]
  by_cases h : x = '-' <;> simp [h] <;> omega

theorem dashCount_le_length (xs : List Char) : dashCount xs ≤ xs.length :=
  List.count_le_length _ _

theorem dashCount_eq_length_of_all (xs : List Char) (h : ∀ c ∈ xs, c = '-') :
    dashCount xs = xs.length := by
  induction xs with
  | nil => rfl
  | cons x xs ih =>
      rw [dashCount_cons, if_pos (h x (List.mem_cons_self _ _)),
        ih fun c hc => h c (List.mem_cons_of_mem _ hc)]
      simp [Nat.add_comm]

theorem all_dash_of_dashCount_eq_length (xs : List Char) :
    dashCount xs = xs.length → ∀ c ∈ xs, c = '-' := by
  induction xs with
  | nil => intro _ c hc; cases hc
  | cons x xs ih =>
      intro h c hc
      rw [dashCount_cons] at h
      have hle := dashCount_le_length xs
      by_cases hx : x = '-'
      · rw [if_pos hx] at h
        simp only [List.length_cons] at h
        rcases List.mem_cons.mp hc with rfl | hc
        · exact hx
        · exact ih (by omega) c hc
      · rw [if_neg hx] at h
        simp only [List.length_cons] at h
        omega

theorem coversC_all_dash (pat tb : List Char) (h : ∀ c ∈ pat, c = '-') :
    coversC pat tb = true := by
  induction pat generalizing tb with
  | nil => rfl
  | cons x xs ih =>
      cases tb with
      | nil => rfl
      | cons c tb =>
          rw [coversC_cons, h x (List.mem_cons_self _ _)]
          simpa using ih tb fun c hc => h c (List.mem_cons_of_mem _ hc)

theorem coversC_no_dash (pat : List Char) :
    ∀ tb : List Char, pat.length = tb.length →
      (∀ c ∈ pat, c = '0' ∨ c = '1') →
      (coversC pat tb = true ↔ pat = tb) := by
  induction pat with
  | nil =>
      intro tb hlen _
      cases tb with
      | nil => simp [coversC]
      | cons c tb => cases hlen
  | cons x xs ih =>
      intro tb hlen hx
      cases tb with
      | nil => cases hlen
      | cons c tb =>
          rw [coversC_cons]
          have hxd : x ≠ '-' := by
            rcases hx x (List.mem_cons_self _ _) with h | h <;> simp [h]
          have : (x == '-') = false := by simpa using hxd
          rw [this, Bool.false_or, Bool.and_eq_true, beq_iff_eq,
            ih tb (by simpa using hlen) (fun c hc => hx c (List.mem_cons_of_mem _ hc))]
          constructor
          · rintro ⟨rfl, rfl⟩; rfl
          · intro h
            injection h with h1 h2
            exact ⟨h1, h2⟩

theorem dash_iff_of_counts (x y : Char) (xs ys : List Char)
    (hdash : dashCount (x :: xs) = dashCount (y :: ys))
    (htail : dashCount xs = dashCount ys) : (x = '-') ↔ (y = '-') := by
  rw [dashCount_cons, dashCount_cons, htail] at hdash
  by_cases hx : x = '-' <;> by_cases hy : y = '-' <;> simp [hx, hy] at hdash ⊢

theorem coversC_mergeBin (xs : List Char) :
    ∀ ys tb : List Char, xs.length = ys.length → tb.length = xs.length →
      diffCount xs ys = 1 → dashCount xs = dashCount ys →
      (∀ c ∈ xs, validChar c) → (∀ c ∈ ys, validChar c) →
      (∀ c ∈ tb, c = '0' ∨ c = '1') →
      coversC (mergeBin xs ys) tb = (coversC xs tb || coversC ys tb) := by
  induction xs with
  | nil =>
      intro ys tb hlen _ hdiff _ _ _ _
      cases ys with
      | nil => simp [diffCount] at hdiff
      | cons y ys => cases hlen
  | cons x xs ih =>
      intro ys tb hlen hlt hdiff hdash hx hy htb
      cases ys with
      | nil => cases hlen
      | cons y ys =>
          cases tb with
          | nil => cases hlt
          | cons c tb =>
              rw [mergeBin_cons]
              by_cases hxy : x = y
              · subst hxy
                have hdiff' : diffCount xs ys = 1 := by
                  rw [diffCount_cons, if_pos rfl, Nat.zero_add] at hdiff
                  exact hdiff
                have hdash' : dashCount xs = dashCount ys := by
                  rw [dashCount_cons, dashCount_cons] at hdash
                  omega
                rw [if_neg (by simp)]
                rw [coversC_cons, coversC_cons, coversC_cons,
                  ih ys tb (by simpa using hlen) (by simpa using hlt) hdiff' hdash'
                    (fun c hc => hx c (List.mem_cons_of_mem _ hc))
                    (fun c hc => hy c (List.mem_cons_of_mem _ hc))
                    (fun c hc => htb c (List.mem_cons_of_mem _ hc))]
                rw [Bool.and_or_distrib_left]
              · have hdiff' : diffCount xs ys = 0 := by
                  rw [diffCount_cons, if_neg hxy] at hdiff
                  omega
                have hxs : xs = ys :=
                  diffCount_zero_eq xs ys (by simpa using hlen) hdiff'
                subst hxs
                have hdashxy : (x = '-') ↔ (y = '-') :=
                  dash_iff_of_counts x y xs xs hdash rfl
                have hxd : x ≠ '-' := fun hcontra =>
                  hxy (hcontra.trans (hdashxy.mp hcontra).symm)
                have hyd : y ≠ '-' := fun hcontra =>
                  hxy ((hdashxy.mpr hcontra).trans hcontra.symm)
                rw [if_pos hxy, mergeBin_self]
                rw [coversC_cons, coversC_cons, coversC_cons]
                have h1 : (('-' : Char) == '-' || ('-' : Char) == c) = true := by simp
                have hx2 : (x == '-') = false := by simpa using hxd
                have hy2 : (y == '-') = false := by simpa using hyd
                rw [h1, Bool.true_and, hx2, hy2, Bool.false_or, Bool.false_or,
                  ← Bool.and_or_distrib_right]
                have hx01 : x = '0' ∨ x = '1' := by
                  rcases hx x (List.mem_cons_self _ _) with h | h | h
                  · exact Or.inl h
                  · exact Or.inr h
                  · exact absurd h hxd
                have hy01 : y = '0' ∨ y = '1' := by
                  rcases hy y (List.mem_cons_self _ _) with h | h | h
                  · exact Or.inl h
                  · exact Or.inr h
                  · exact absurd h hyd
                have hc01 : c = '0' ∨ c = '1' := htb c (List.mem_cons_self _ _)
                have hxyc : (x == c || y == c) = true := by
                  rcases hx01 with rfl | rfl <;> rcases hy01 with rfl | rfl <;>
                    rcases hc01 with rfl | rfl <;>
                    first
                    | rfl
                    | exact absurd rfl hxy
                rw [hxyc, Bool.true_and]

/-! ### Implicant-level facts -/

theorem dashCount_eq_zero (xs : List Char) (h : ∀ c ∈ xs, c = '0' ∨ c = '1') :
    dashCount xs = 0 := by
  rw [dashCount, List.count_eq_zero]
  intro hmem
  rcases h '-' hmem with hc | hc <;> cases hc

theorem dashCount_mergeBin (xs : List Char) :
    ∀ ys : List Char, xs.length = ys.length →
      diffCount xs ys = 1 → dashCount xs = dashCount ys →
      (∀ c ∈ xs, validChar c) → (∀ c ∈ ys, validChar c) →
      dashCount (mergeBin xs ys) = dashCount xs + 1 := by
  induction xs with
  | nil =>
      intro ys hlen hdiff _ _ _
      cases ys with
      | nil => simp [diffCount] at hdiff
      | cons y ys => cases hlen
  | cons x xs ih =>
      intro ys hlen hdiff hdash hx hy
      cases ys with
      | nil => cases hlen
      | cons y ys =>
          rw [mergeBin_cons]
          by_cases hxy : x = y
          · subst hxy
            have hdiff' : diffCount xs ys = 1 := by
              rw [diffCount_cons, if_pos rfl, Nat.zero_add] at hdiff
              exact hdiff
            have hdash' : dashCount xs = dashCount ys := by
              rw [dashCount_cons, dashCount_cons] at hdash
              omega
            rw [if_neg (by simp), dashCount_cons, dashCount_cons,
              ih ys (by simpa using hlen) hdiff' hdash'
                (fun c hc => hx c (List.mem_cons_of_mem _ hc))
                (fun c hc => hy c (List.mem_cons_of_mem _ hc))]
            omega
          · have hdiff' : diffCount xs ys = 0 := by
              rw [diffCount_cons, if_neg hxy] at hdiff
              omega
            have hxs : xs = ys :=
              diffCount_zero_eq xs ys (by simpa using hlen) hdiff'
            subst hxs
            have hdashxy : (x = '-') ↔ (y = '-') :=
              dash_iff_of_counts x y xs xs hdash rfl
            have hxd : x ≠ '-' := fun hcontra =>
              hxy (hcontra.trans (hdashxy.mp hcontra).symm)
            rw [if_pos hxy, mergeBin_self, dashCount_cons, dashCount_cons,
              if_pos rfl, if_neg hxd]
            omega

theorem diffOne_pos (xs : List Char) :
    ∀ ys : List Char, xs.length = ys.length →
      diffCount xs ys = 1 → dashCount xs = dashCount ys →
      (∀ c ∈ xs, validChar c) → (∀ c ∈ ys, validChar c) →
      ∃ i, i < xs.length ∧
        ((xs[i]? = some '0' ∧ ys[i]? = some '1') ∨
         (xs[i]? = some '1' ∧ ys[i]? = some '0')) ∧
        ∀ j, j ≠ i → xs[j]? = ys[j]? := by
  induction xs with
  | nil =>
      intro ys hlen hdiff _ _ _
      cases ys with
      | nil => simp [diffCount] at hdiff
      | cons y ys => cases hlen
  | cons x xs ih =>
      intro ys hlen hdiff hdash hx hy
      cases ys with
      | nil => cases hlen
      | cons y ys =>
          by_cases hxy : x = y
          · subst hxy
            have hdiff' : diffCount xs ys = 1 := by
              rw [diffCount_cons, if_pos rfl, Nat.zero_add] at hdiff
              exact hdiff
            have hdash' : dashCount xs = dashCount ys := by
              rw [dashCount_cons, dashCount_cons] at hdash
              omega
            obtain ⟨i, hi, hdig, hrest⟩ :=
              ih ys (by simpa using hlen) hdiff' hdash'
                (fun c hc => hx c (List.mem_cons_of_mem _ hc))
                (fun c hc => hy c (List.mem_cons_of_mem _ hc))
            refine ⟨i + 1, by simpa using Nat.succ_lt_succ hi, by simpa using hdig, ?_⟩
            intro j hj
            cases j with
            | zero => simp
            | succ j' => simpa using hrest j' (fun hc => hj (by rw [hc]))
          · have hdiff' : diffCount xs ys = 0 := by
              rw [diffCount_cons, if_neg hxy] at hdiff
              omega
            have hxs : xs = ys :=
              diffCount_zero_eq xs ys (by simpa using hlen) hdiff'
            subst hxs
            have hdashxy : (x = '-') ↔ (y = '-') :=
              dash_iff_of_counts x y xs xs hdash rfl
            have hxd : x ≠ '-' := fun hcontra =>
              hxy (hcontra.trans (hdashxy.mp hcontra).symm)
            have hyd : y ≠ '-' := fun hcontra =>
              hxy ((hdashxy.mpr hcontra).trans hcontra.symm)
            have hx01 : x = '0' ∨ x = '1' := by
              rcases hx x (List.mem_cons_self _ _) with h | h | h
              · exact Or.inl h
              · exact Or.inr h
              · exact absurd h hxd
            have hy01 : y = '0' ∨ y = '1' := by
              rcases hy y (List.mem_cons_self _ _) with h | h | h
              · exact Or.inl h
              · exact Or.inr h
              · exact absurd h hyd
            refine ⟨0, by simp, ?_, ?_⟩
            · rcases hx01 with rfl | rfl <;> rcases hy01 with rfl | rfl
              · exact absurd rfl hxy
              · exact Or.inl ⟨by simp, by simp⟩
              · exact Or.inr ⟨by simp, by simp⟩
              · exact absurd rfl hxy
            · intro j hj
              cases j with
              | zero => exact absurd rfl hj
              | succ j' => rfl

theorem mem_merge_minterms (a b : Implicant) (t : Int) :
    t ∈ (a.merge b).minterms ↔ t ∈ a.minterms ∨ t ∈ b.minterms := by
  simp [Implicant.merge, mem_sortBy]

theorem merge_binary (a b : Implicant) :
    (a.merge b).binary.data = mergeBin a.binary.data b.binary.data := rfl

theorem canMerge_elim (a b : Implicant) (h : canMerge a b = true) :
    a.binary.data.length = b.binary.data.length ∧
      diffCount a.binary.data b.binary.data = 1 := by
  rw [canMerge, Bool.and_eq_true, beq_iff_eq, beq_iff_eq] at h
  exact h

theorem mkImplicant_good (nv : Nat) (allTerms : List Int)
    (hrange : ∀ t ∈ allTerms, inRange nv t) (t₀ : Int) (ht₀ : t₀ ∈ allTerms) :
    GoodImp nv allTerms (mkImplicant t₀ nv) ∧
      dashCount (mkImplicant t₀ nv).binary.data = 0 := by
  have hchars := intToBinary_chars t₀ nv
  refine ⟨⟨length_intToBinary t₀ nv, ?_, ?_, ?_⟩, dashCount_eq_zero _ hchars⟩
  · intro c hc
    rcases hchars c hc with h | h
    · exact Or.inl h
    · exact Or.inr (Or.inl h)
  · intro t ht
    simp only [mkImplicant, List.mem_singleton] at ht ⊢
    exact ht ▸ ht₀
  · intro t ht
    have hcov := coversC_no_dash (intToBinary t₀ nv).data (intToBinary t nv).data
      (by rw [length_intToBinary, length_intToBinary]) hchars
    show coversC (intToBinary t₀ nv).data (intToBinary t nv).data = true ↔
      t ∈ (mkImplicant t₀ nv).minterms
    rw [hcov]
    simp only [mkImplicant, List.mem_singleton]
    constructor
    · intro h
      exact (intToBinary_inj nv t₀ t (hrange t₀ ht₀) ht h).symm
    · rintro rfl
      rfl

theorem merge_good (nv : Nat) (allTerms : List Int) (a b : Implicant)
    (ha : GoodImp nv allTerms a) (hb : GoodImp nv allTerms b)
    (hd : dashCount a.binary.data = dashCount b.binary.data)
    (hm : canMerge a b = true) :
    GoodImp nv allTerms (a.merge b) ∧
      dashCount (a.merge b).binary.data = dashCount a.binary.data + 1 := by
  obtain ⟨hlena, hcharsa, hsuba, hcova⟩ := ha
  obtain ⟨hlenb, hcharsb, hsubb, hcovb⟩ := hb
  obtain ⟨hlen, hdiff⟩ := canMerge_elim a b hm
  constructor
  · refine ⟨?_, ?_, ?_, ?_⟩
    · rw [merge_binary, length_mergeBin _ _ hlen, hlena]
    · rw [merge_binary]
      exact mergeBin_chars _ _ hcharsa
    · intro t ht
      rcases (mem_merge_minterms a b t).mp ht with h | h
      · exact hsuba t h
      · exact hsubb t h
    · intro t ht
      rw [Implicant.covers, merge_binary,
        coversC_mergeBin a.binary.data b.binary.data (intToBinary t nv).data
          hlen (by rw [length_intToBinary, hlena]) hdiff hd hcharsa hcharsb
          (intToBinary_chars t nv),
        mem_merge_minterms]
      rw [Bool.or_eq_true]
      rw [show (coversC a.binary.data (intToBinary t nv).data = true) ↔ t ∈ a.minterms
          from hcova t ht,
        show (coversC b.binary.data (intToBinary t nv).data = true) ↔ t ∈ b.minterms
          from hcovb t ht]
  · rw [merge_binary]
    exact dashCount_mergeBin _ _ hlen hdiff hd hcharsa hcharsb

/-! ### Group maps and merge rounds -/

theorem flatGroups_nil : flatGroups [] = [] := rfl

theorem flatGroups_cons (k : Nat) (g : List Implicant)
    (rest : List (Nat × List Implicant)) :
    flatGroups ((k, g) :: rest) = g ++ flatGroups rest := by
  simp [flatGroups]

theorem mem_flatGroups_addToGroup (k : Nat) (imp x : Implicant)
    (gs : List (Nat × List Implicant)) :
    x ∈ flatGroups (addToGroup k imp gs) ↔ x = imp ∨ x ∈ flatGroups gs := by
  induction gs with
  | nil => simp [addToGroup, flatGroups]
  | cons hd rest ih =>
      obtain ⟨k₀, v⟩ := hd
      simp only [addToGroup]
      by_cases h1 : k = k₀
      · rw [if_pos h1]
        simp only [flatGroups_cons, List.mem_append, List.mem_singleton]
        tauto
      · rw [if_neg h1]
        by_cases h2 : k < k₀
        · rw [if_pos h2]
          simp only [flatGroups_cons, List.mem_append, List.mem_singleton]
        · rw [if_neg h2]
          simp only [flatGroups_cons, List.mem_append, ih]
          tauto

theorem mem_flatGroups_foldl (l : List Implicant)
    (x : Implicant) :
    ∀ m : List (Nat × List Implicant),
      (x ∈ flatGroups (l.foldl (fun m imp => addToGroup imp.countOnes imp m) m) ↔
        x ∈ l ∨ x ∈ flatGroups m) := by
  induction l with
  | nil => intro m; simp
  | cons a l ih =>
      intro m
      simp only [List.foldl_cons, ih, mem_flatGroups_addToGroup, List.mem_cons]
      tauto

theorem mem_flatGroups_buildGroups (l : List Implicant) (x : Implicant) :
    x ∈ flatGroups (buildGroups l) ↔ x ∈ l := by
  rw [buildGroups, mem_flatGroups_foldl]
  simp [flatGroups]

theorem mem_pairMerges (g₁ g₂ : List Implicant) (x : Implicant) :
    x ∈ pairMerges g₁ g₂ ↔
      ∃ a ∈ g₁, ∃ b ∈ g₂, canMerge a b = true ∧ x = a.merge b := by
  induction g₁ with
  | nil => simp [pairMerges]
  | cons a g₁ ih =>
      simp only [pairMerges, List.foldr_cons, List.mem_append, List.mem_filterMap]
      rw [show (g₁.foldr (fun a acc =>
        (g₂.filterMap fun b => if canMerge a b then some (a.merge b) else none) ++ acc) [] :
          List Implicant) = pairMerges g₁ g₂ from rfl, ih]
      constructor
      · rintro (⟨b, hb, hx⟩ | ⟨a', ha', b, hb, hcm, rfl⟩)
        · by_cases hcm : canMerge a b
          · rw [if_pos hcm] at hx
            exact ⟨a, List.mem_cons_self _ _, b, hb, hcm, (Option.some_inj.mp hx).symm⟩
          · rw [if_neg hcm] at hx
            cases hx
        · exact ⟨a', List.mem_cons_of_mem _ ha', b, hb, hcm, rfl⟩
      · rintro ⟨a', ha', b, hb, hcm, rfl⟩
        rcases List.mem_cons.mp ha' with rfl | ha'
        · exact Or.inl ⟨b, hb, by rw [if_pos hcm]⟩
        · exact Or.inr ⟨a', ha', b, hb, hcm, rfl⟩

theorem roundMerges_cons₂ (k₁ k₂ : Nat) (g₁ g₂ : List Implicant)
    (rest : List (Nat × List Implicant)) :
    roundMerges ((k₁, g₁) :: (k₂, g₂) :: rest) =
      (if k₂ = k₁ + 1 then pairMerges g₁ g₂ else []) ++
        roundMerges ((k₂, g₂) :: rest) := rfl

theorem mem_roundMerges (gs : List (Nat × List Implicant)) (x : Implicant)
    (hx : x ∈ roundMerges gs) :
    ∃ a b, a ∈ flatGroups gs ∧ b ∈ flatGroups gs ∧ canMerge a b = true ∧
      x = a.merge b := by
  induction gs with
  | nil => cases hx
  | cons hd tl ih =>
      obtain ⟨k₁, g₁⟩ := hd
      cases tl with
      | nil => cases hx
      | cons hd₂ rest =>
          obtain ⟨k₂, g₂⟩ := hd₂
          rw [roundMerges_cons₂, List.mem_append] at hx
          rcases hx with hx | hx
          · by_cases hk : k₂ = k₁ + 1
            · rw [if_pos hk] at hx
              obtain ⟨a, ha, b, hb, hcm, rfl⟩ := (mem_pairMerges g₁ g₂ x).mp hx
              refine ⟨a, b, ?_, ?_, hcm, rfl⟩
              · rw [flatGroups_cons, List.mem_append]
                exact Or.inl ha
              · rw [flatGroups_cons, List.mem_append, flatGroups_cons, List.mem_append]
                exact Or.inr (Or.inl hb)
            · rw [if_neg hk] at hx
              cases hx
          · obtain ⟨a, b, ha, hb, hcm, rfl⟩ := ih hx
            refine ⟨a, b, ?_, ?_, hcm, rfl⟩
            · rw [flatGroups_cons, List.mem_append]
              exact Or.inr ha
            · rw [flatGroups_cons, List.mem_append]
              exact Or.inr hb

theorem collectUnmarked_subset (prev : Option (Nat × List Implicant))
    (gs : List (Nat × List Implicant)) (x : Implicant)
    (hx : x ∈ collectUnmarked prev gs) : x ∈ flatGroups gs := by
  induction gs generalizing prev with
  | nil => cases hx
  | cons hd rest ih =>
      obtain ⟨k, g⟩ := hd
      simp only [collectUnmarked, List.mem_append] at hx
      rw [flatGroups_cons, List.mem_append]
      rcases hx with hx | hx
      · exact Or.inl (List.mem_of_mem_filter hx)
      · exact Or.inr (ih _ hx)

theorem flowStep (gs : List (Nat × List Implicant)) (x : Implicant)
    (hx : x ∈ flatGroups gs) :
    x ∈ collectUnmarked none gs ∨
      ∃ y ∈ roundMerges gs, ∀ t ∈ x.minterms, t ∈ y.minterms := by
  induction gs with
  | nil => cases hx
  | cons hd tl ih =>
      obtain ⟨k₁, g₁⟩ := hd
      cases tl with
      | nil =>
          left
          rw [flatGroups_cons, flatGroups_nil, List.append_nil] at hx
          simp only [collectUnmarked, List.head?_nil, mergesNext, mergesPrev,
            List.mem_append]
          left
          rw [List.mem_filter]
          exact ⟨hx, rfl⟩
      | cons hd₂ rest =>
          obtain ⟨k₂, g₂⟩ := hd₂
          rw [flatGroups_cons, List.mem_append] at hx
          rcases hx with hx | hx
          · -- x sits in the first group
            by_cases hmark : mergesNext x k₁ (((k₂, g₂) :: rest).head?) = true
            · right
              simp only [List.head?_cons, mergesNext, Bool.and_eq_true, beq_iff_eq,
                List.any_eq_true] at hmark
              obtain ⟨hk, b, hb, hcm⟩ := hmark
              refine ⟨x.merge b, ?_, ?_⟩
              · rw [roundMerges_cons₂, List.mem_append, if_pos hk]
                exact Or.inl ((mem_pairMerges g₁ g₂ _).mpr ⟨x, hx, b, hb, hcm, rfl⟩)
              · intro t ht
                exact (mem_merge_minterms x b t).mpr (Or.inl ht)
            · left
              simp only [collectUnmarked, List.mem_append]
              left
              rw [List.mem_filter]
              refine ⟨hx, ?_⟩
              simp only [mergesPrev, Bool.or_false]
              simpa using hmark
          · -- x sits in a later group
            rcases ih hx with hcol | ⟨y, hy, hmt⟩
            · -- compare the `none` and `some` previous-group parameters
              simp only [collectUnmarked, List.mem_append] at hcol
              rcases hcol with hcol | hcol
              · rw [List.mem_filter] at hcol
                obtain ⟨hxg, hcond⟩ := hcol
                have hcond' : mergesNext x k₂ rest.head? = false := by
                  simp only [mergesPrev, Bool.or_false] at hcond
                  simpa using hcond
                by_cases hprev : mergesPrev x k₂ (some (k₁, g₁)) = true
                · right
                  simp only [mergesPrev, Bool.and_eq_true, beq_iff_eq,
                    List.any_eq_true] at hprev
                  obtain ⟨hk, a, ha, hcm⟩ := hprev
                  refine ⟨a.merge x, ?_, ?_⟩
                  · rw [roundMerges_cons₂, List.mem_append, if_pos hk]
                    exact Or.inl ((mem_pairMerges g₁ g₂ _).mpr ⟨a, ha, x, hxg, hcm, rfl⟩)
                  · intro t ht
                    exact (mem_merge_minterms a x t).mpr (Or.inr ht)
                · left
                  rw [Bool.not_eq_true] at hprev
                  simp only [collectUnmarked, List.mem_append]
                  refine Or.inr (Or.inl ?_)
                  rw [List.mem_filter]
                  refine ⟨hxg, ?_⟩
                  rw [hcond', hprev]
                  rfl
              · left
                simp only [collectUnmarked, List.mem_append]
                exact Or.inr (Or.inr hcol)
            · right
              refine ⟨y, ?_, hmt⟩
              rw [roundMerges_cons₂, List.mem_append]
              exact Or.inr hy

/-! ### The merge loop -/

theorem qmLoop_succ (fuel : Nat) (gs : List (Nat × List Implicant))
    (acc : List Implicant) :
    qmLoop (fuel + 1) gs acc =
      if (roundMerges gs).isEmpty then acc ++ collectUnmarked none gs
      else qmLoop fuel (buildGroups (roundMerges gs))
        (acc ++ collectUnmarked none gs) := rfl

theorem qmLoop_main (nv : Nat) (allTerms : List Int) :
    ∀ fuel gs acc d,
      (∀ imp ∈ flatGroups gs,
        GoodImp nv allTerms imp ∧ dashCount imp.binary.data = d) →
      d ≤ nv → nv + 1 - d ≤ fuel →
      (∀ imp ∈ acc, GoodImp nv allTerms imp) →
      (∀ imp ∈ qmLoop fuel gs acc, GoodImp nv allTerms imp) ∧
      (∀ imp ∈ acc, imp ∈ qmLoop fuel gs acc) ∧
      (∀ x ∈ flatGroups gs, ∀ t ∈ x.minterms,
        ∃ p ∈ qmLoop fuel gs acc, t ∈ p.minterms) ∧
      (∀ k, qmLoop (fuel + k) gs acc = qmLoop fuel gs acc) := by
  intro fuel
  induction fuel with
  | zero =>
      intro gs acc d hinv hd hfuel hacc
      omega
  | succ fuel ih =>
      intro gs acc d hinv hd hfuel hacc
      by_cases hme : (roundMerges gs).isEmpty
      · have hres : qmLoop (fuel + 1) gs acc = acc ++ collectUnmarked none gs := by
          rw [qmLoop_succ, if_pos hme]
        have hnil : roundMerges gs = [] := List.isEmpty_iff.mp hme
        refine ⟨?_, ?_, ?_, ?_⟩
        · intro imp himp
          rw [hres, List.mem_append] at himp
          rcases himp with h | h
          · exact hacc imp h
          · exact (hinv imp (collectUnmarked_subset _ _ _ h)).1
        · intro imp h
          rw [hres, List.mem_append]
          exact Or.inl h
        · intro x hx t ht
          rcases flowStep gs x hx with h | ⟨y, hy, _⟩
          · refine ⟨x, ?_, ht⟩
            rw [hres, List.mem_append]
            exact Or.inr h
          · rw [hnil] at hy
            cases hy
        · intro k
          have h1 : fuel + 1 + k = (fuel + k) + 1 := by omega
          rw [h1, qmLoop_succ, if_pos hme, hres]
      · have hmerge : ∀ y ∈ roundMerges gs,
            GoodImp nv allTerms y ∧ dashCount y.binary.data = d + 1 := by
          intro y hy
          obtain ⟨a, b, ha, hb, hcm, rfl⟩ := mem_roundMerges gs y hy
          have hga := hinv a ha
          have hgb := hinv b hb
          have hg := merge_good nv allTerms a b hga.1 hgb.1
            (hga.2.trans hgb.2.symm) hcm
          exact ⟨hg.1, by rw [hg.2, hga.2]⟩
        have hinv' : ∀ imp ∈ flatGroups (buildGroups (roundMerges gs)),
            GoodImp nv allTerms imp ∧ dashCount imp.binary.data = d + 1 := by
          intro imp himp
          exact hmerge imp ((mem_flatGroups_buildGroups _ _).mp himp)
        have hd1 : d + 1 ≤ nv := by
          cases h : roundMerges gs with
          | nil => rw [h] at hme; exact absurd rfl hme
          | cons y ys =>
              have hy : y ∈ roundMerges gs := by
                rw [h]; exact List.mem_cons_self _ _
              have hgy := hmerge y hy
              have hlen : y.binary.data.length = nv := hgy.1.1
              have hle := dashCount_le_length y.binary.data
              omega
        have hacc' : ∀ imp ∈ acc ++ collectUnmarked none gs,
            GoodImp nv allTerms imp := by
          intro imp himp
          rw [List.mem_append] at himp
          rcases himp with h | h
          · exact hacc imp h
          · exact (hinv imp (collectUnmarked_subset _ _ _ h)).1
        obtain ⟨IH1, IH2, IH3, IH4⟩ := ih (buildGroups (roundMerges gs))
          (acc ++ collectUnmarked none gs) (d + 1) hinv' hd1 (by omega) hacc'
        have hres : qmLoop (fuel + 1) gs acc =
            qmLoop fuel (buildGroups (roundMerges gs))
              (acc ++ collectUnmarked none gs) := by
          rw [qmLoop_succ, if_neg hme]
        refine ⟨?_, ?_, ?_, ?_⟩
        · rw [hres]
          exact IH1
        · intro imp h
          rw [hres]
          exact IH2 imp (List.mem_append.mpr (Or.inl h))
        · intro x hx t ht
          rcases flowStep gs x hx with h | ⟨y, hy, hsub⟩
          · refine ⟨x, ?_, ht⟩
            rw [hres]
            exact IH2 x (List.mem_append.mpr (Or.inr h))
          · have hyg : y ∈ flatGroups (buildGroups (roundMerges gs)) :=
              (mem_flatGroups_buildGroups _ _).mpr hy
            obtain ⟨p, hp, hpt⟩ := IH3 y hyg t (hsub t ht)
            refine ⟨p, ?_, hpt⟩
            rw [hres]
            exact hp
        · intro k
          have h1 : fuel + 1 + k = (fuel + k) + 1 := by omega
          rw [h1, qmLoop_succ, if_neg hme, IH4 k, hres]

/-! ### Prime implicants -/

theorem covers_congr (p p' : Implicant) (h : p'.binary = p.binary) (t : Int)
    (nv : Nat) : p'.covers t nv = p.covers t nv := by
  rw [Implicant.covers, Implicant.covers, h]

theorem removeDuplicates_subset (l : List Implicant) (p : Implicant)
    (hp : p ∈ removeDuplicates l) : p ∈ l := by
  rw [removeDuplicates] at hp
  exact (mem_sortBy _ _ _).mp (mem_of_mem_dedupAdjBy _ _ _ hp)

theorem removeDuplicates_binary_complete (l : List Implicant) (p : Implicant)
    (hp : p ∈ l) : ∃ p' ∈ removeDuplicates l, p'.binary = p.binary := by
  rw [removeDuplicates]
  exact dedupAdjBy_key_complete _ (fun i => i.binary)
    (fun a b h => beq_iff_eq.mp h) _ p ((mem_sortBy _ _ _).mpr hp)

theorem initGroups_inv (nv : Nat) (terms : List Int)
    (hrange : ∀ t ∈ terms, inRange nv t) :
    ∀ imp ∈ flatGroups (initGroups nv terms),
      GoodImp nv terms imp ∧ dashCount imp.binary.data = 0 := by
  intro imp himp
  rw [initGroups, mem_flatGroups_buildGroups, List.mem_map] at himp
  obtain ⟨t, ht, rfl⟩ := himp
  exact mkImplicant_good nv terms hrange t ht

theorem findPrimeImplicantsFuel_good (fuel nv : Nat) (terms : List Int)
    (hrange : ∀ t ∈ terms, inRange nv t) (hfuel : nv + 1 ≤ fuel) :
    ∀ p ∈ findPrimeImplicantsFuel fuel nv terms, GoodImp nv terms p := by
  intro p hp
  rw [findPrimeImplicantsFuel] at hp
  by_cases hterms : terms.isEmpty
  · rw [if_pos hterms] at hp
    cases hp
  · rw [if_neg hterms] at hp
    have hmain := qmLoop_main nv terms fuel (initGroups nv terms) [] 0
      (initGroups_inv nv terms hrange) (Nat.zero_le nv) (by omega)
      (fun imp h => by cases h)
    exact hmain.1 p (removeDuplicates_subset _ p hp)

theorem findPrimeImplicantsFuel_covers (fuel nv : Nat) (terms : List Int)
    (hrange : ∀ t ∈ terms, inRange nv t) (hfuel : nv + 1 ≤ fuel) :
    ∀ t ∈ terms, ∃ p ∈ findPrimeImplicantsFuel fuel nv terms,
      p.covers t nv = true := by
  intro t ht
  rw [findPrimeImplicantsFuel]
  have hterms : ¬terms.isEmpty := by
    cases terms with
    | nil => cases ht
    | cons a l => simp
  rw [if_neg hterms]
  have hmain := qmLoop_main nv terms fuel (initGroups nv terms) [] 0
    (initGroups_inv nv terms hrange) (Nat.zero_le nv) (by omega)
    (fun imp h => by cases h)
  have hx : mkImplicant t nv ∈ flatGroups (initGroups nv terms) := by
    rw [initGroups, mem_flatGroups_buildGroups, List.mem_map]
    exact ⟨t, ht, rfl⟩
  obtain ⟨p, hp, hpt⟩ := hmain.2.2.1 (mkImplicant t nv) hx t
    (List.mem_singleton.mpr rfl)
  have hgood := hmain.1 p hp
  have hcov : p.covers t nv = true := (hgood.2.2.2 t (hrange t ht)).mpr hpt
  obtain ⟨p', hp', hbin⟩ := removeDuplicates_binary_complete _ p hp
  exact ⟨p', hp', by rw [covers_congr p p' hbin]; exact hcov⟩

theorem findPrimeImplicantsFuel_stable (fuel nv : Nat) (terms : List Int)
    (hrange : ∀ t ∈ terms, inRange nv t) (hfuel : nv + 1 ≤ fuel) :
    findPrimeImplicantsFuel fuel nv terms = findPrimeImplicants nv terms := by
  rw [findPrimeImplicants, findPrimeImplicantsFuel, findPrimeImplicantsFuel]
  by_cases hterms : terms.isEmpty
  · rw [if_pos hterms, if_pos hterms]
  · rw [if_neg hterms, if_neg hterms]
    have hmain := qmLoop_main nv terms (nv + 1) (initGroups nv terms) [] 0
      (initGroups_inv nv terms hrange) (Nat.zero_le nv) (by omega)
      (fun imp h => by cases h)
    have := hmain.2.2.2 (fuel - (nv + 1))
    rw [show nv + 1 + (fuel - (nv + 1)) = fuel by omega] at this
    rw [this]

/-! ### Essential primes -/

theorem findEssentialPrimes_shape (nv : Nat) (primes : List Implicant) :
    ∀ (ms : List Int) (acc : List Implicant),
      (∀ e ∈ acc, ∃ p ∈ primes, e = { p with isEssential := true }) →
      ∀ e ∈ ms.foldl (fun ess m =>
        match primes.filter (fun imp => imp.covers m nv) with
        | [e] =>
            if ess.any (fun ep => ep.binary == e.binary) then ess
            else ess ++ [{ e with isEssential := true }]
        | _ => ess) acc,
        ∃ p ∈ primes, e = { p with isEssential := true } := by
  intro ms
  induction ms with
  | nil => intro acc hacc e he; exact hacc e he
  | cons m ms ih =>
      intro acc hacc e he
      rw [List.foldl_cons] at he
      refine ih _ ?_ e he
      cases hfil : primes.filter (fun imp => imp.covers m nv) with
      | nil => simpa [hfil] using hacc
      | cons e₀ tail =>
          cases tail with
          | nil =>
              simp only [hfil]
              by_cases hdup : acc.any (fun ep => ep.binary == e₀.binary)
              · simpa [hdup] using hacc
              · rw [if_neg hdup]
                intro e' he'
                rcases List.mem_append.mp he' with h | h
                · exact hacc e' h
                · have he₀ : e₀ ∈ primes := by
                    have : e₀ ∈ primes.filter (fun imp => imp.covers m nv) := by
                      rw [hfil]; exact List.mem_cons_self _ _
                    exact List.mem_of_mem_filter this
                  rcases List.mem_singleton.mp h with rfl
                  exact ⟨e₀, he₀, rfl⟩
          | cons e₁ tail₂ => simpa [hfil] using hacc

theorem mem_findEssentialPrimes (nv : Nat) (ms : List Int)
    (primes : List Implicant) (e : Implicant)
    (he : e ∈ findEssentialPrimes nv ms primes) :
    ∃ p ∈ primes, e = { p with isEssential := true } := by
  exact findEssentialPrimes_shape nv primes ms [] (fun e h => by cases h) e he

theorem goodImp_setEssential (nv : Nat) (allTerms : List Int) (p : Implicant)
    (h : GoodImp nv allTerms p) :
    GoodImp nv allTerms { p with isEssential := true } := h

/-! ### The greedy cover loop -/

theorem mem_eraseIdx_of_ne {α : Type} (l : List α) (i : Nat) (x y : α)
    (hx : x ∈ l) (hy : l[i]? = some y) (hne : x ≠ y) : x ∈ l.eraseIdx i := by
  induction l generalizing i with
  | nil => cases hx
  | cons a tl ih =>
      cases i with
      | zero =>
          simp only [List.getElem?_cons_zero, Option.some_inj] at hy
          rcases List.mem_cons.mp hx with rfl | hx
          · exact absurd hy hne
          · simpa [List.eraseIdx] using hx
      | succ i =>
          simp only [List.getElem?_cons_succ] at hy
          rcases List.mem_cons.mp hx with rfl | hx
          · simp [List.eraseIdx]
          · simp only [List.eraseIdx, List.mem_cons]
            exact Or.inr (ih i hx hy)

theorem coverCountI_nonneg (nv : Nat) (unc : List Int) (imp : Implicant) :
    0 ≤ coverCountI nv unc imp := Int.natCast_nonneg _

theorem bestPickAux_bound (nv : Nat) (unc : List Int) :
    ∀ (rem : List Implicant) (i mc bi : Int),
      0 ≤ i →
      ((0 ≤ bi ∧ bi < i) ∨ (mc = -1 ∧ bi = -1)) →
      (rem ≠ [] ∨ (0 ≤ bi ∧ bi < i)) →
      0 ≤ (bestPickAux nv unc rem i (mc, bi)).2 ∧
        (bestPickAux nv unc rem i (mc, bi)).2 < i + rem.length := by
  intro rem
  induction rem with
  | nil =>
      intro i mc bi hi hinv hne
      rcases hne with h | h
      · exact absurd rfl h
      · simpa [bestPickAux] using ⟨h.1, by simpa using h.2⟩
  | cons imp rest ih =>
      intro i mc bi hi hinv _
      rw [bestPickAux]
      by_cases hup : mc < coverCountI nv unc imp
      · rw [if_pos hup]
        have := ih (i + 1) (coverCountI nv unc imp) i (by omega)
          (Or.inl ⟨hi, by omega⟩) (Or.inr ⟨hi, by omega⟩)
        simp only [List.length_cons] at *
        constructor
        · exact this.1
        · have h2 := this.2
          push_cast at h2 ⊢
          omega
      · rw [if_neg hup]
        have hc := coverCountI_nonneg nv unc imp
        have hinv' : 0 ≤ bi ∧ bi < i := by
          rcases hinv with h | h
          · exact h
          · exfalso; omega
        have := ih (i + 1) mc bi (by omega) (Or.inl ⟨hinv'.1, by omega⟩)
          (Or.inr ⟨hinv'.1, by omega⟩)
        simp only [List.length_cons] at *
        constructor
        · exact this.1
        · have h2 := this.2
          push_cast at h2 ⊢
          omega

theorem bestPick_bound (nv : Nat) (unc : List Int) (rem : List Implicant)
    (h : rem ≠ []) :
    0 ≤ (bestPick nv unc rem).2 ∧ (bestPick nv unc rem).2.toNat < rem.length := by
  have := bestPickAux_bound nv unc rem 0 (-1) (-1) (by omega)
    (Or.inr ⟨rfl, rfl⟩) (Or.inl h)
  rw [bestPick]
  omega

theorem greedyLoop_cover_subset (nv : Nat) :
    ∀ (fuel : Nat) (unc : List Int) (rem cover : List Implicant) (x : Implicant),
      x ∈ cover → x ∈ greedyLoop nv fuel unc rem cover := by
  intro fuel
  induction fuel with
  | zero => intro unc rem cover x hx; exact hx
  | succ fuel ih =>
      intro unc rem cover x hx
      rw [greedyLoop]
      by_cases hstop : unc.isEmpty || rem.isEmpty
      · rw [if_pos hstop]; exact hx
      · rw [if_neg hstop]
        cases hget : rem[(bestPick nv unc rem).2.toNat]? with
        | none => exact hx
        | some best =>
            exact ih _ _ _ x (List.mem_append.mpr (Or.inl hx))

theorem greedyLoop_mem (nv : Nat) :
    ∀ (fuel : Nat) (unc : List Int) (rem cover : List Implicant) (x : Implicant),
      x ∈ greedyLoop nv fuel unc rem cover → x ∈ cover ∨ x ∈ rem := by
  intro fuel
  induction fuel with
  | zero => intro unc rem cover x hx; exact Or.inl hx
  | succ fuel ih =>
      intro unc rem cover x hx
      rw [greedyLoop] at hx
      by_cases hstop : unc.isEmpty || rem.isEmpty
      · rw [if_pos hstop] at hx; exact Or.inl hx
      · rw [if_neg hstop] at hx
        cases hget : rem[(bestPick nv unc rem).2.toNat]? with
        | none => rw [hget] at hx; exact Or.inl hx
        | some best =>
            rw [hget] at hx
            rcases ih _ _ _ x hx with h | h
            · rcases List.mem_append.mp h with h | h
              · exact Or.inl h
              · exact Or.inr (List.getElem?_mem (List.mem_singleton.mp h ▸ hget))
            · exact Or.inr ((List.eraseIdx_sublist rem _).subset h)

theorem greedyLoop_covers (nv : Nat) :
    ∀ (fuel : Nat) (unc : List Int) (rem cover : List Implicant),
      rem.length ≤ fuel →
      (∀ m ∈ unc, ∃ p ∈ rem, p.covers m nv = true) →
      ∀ m ∈ unc, ∃ i ∈ greedyLoop nv fuel unc rem cover, i.covers m nv = true := by
  intro fuel
  induction fuel with
  | zero =>
      intro unc rem cover hlen hinv m hm
      obtain ⟨p, hp, _⟩ := hinv m hm
      have hrem : rem = [] := List.length_eq_zero.mp (by omega)
      rw [hrem] at hp
      cases hp
  | succ fuel ih =>
      intro unc rem cover hlen hinv m hm
      rw [greedyLoop]
      have hunc : ¬unc.isEmpty := by
        cases unc with
        | nil => cases hm
        | cons a l => simp
      have hrem : rem ≠ [] := by
        intro hcontra
        obtain ⟨p, hp, _⟩ := hinv m hm
        rw [hcontra] at hp
        cases hp
      have hstop : ¬(unc.isEmpty || rem.isEmpty) = true := by
        simp only [Bool.or_eq_true, not_or]
        exact ⟨by simpa using hunc, by simpa using hrem⟩
      rw [if_neg hstop]
      obtain ⟨hge, hlt⟩ := bestPick_bound nv unc rem hrem
      rw [List.getElem?_eq_getElem hlt]
      set best := rem[(bestPick nv unc rem).2.toNat] with hbest
      by_cases hcov : best.covers m nv = true
      · exact ⟨best, greedyLoop_cover_subset nv fuel _ _ _ best
          (List.mem_append.mpr (Or.inr (List.mem_singleton.mpr rfl))), hcov⟩
      · have hm' : m ∈ unc.filter fun m => !best.covers m nv := by
          rw [List.mem_filter]
          exact ⟨hm, by simp [hcov]⟩
        have hlen' : (rem.eraseIdx (bestPick nv unc rem).2.toNat).length ≤ fuel := by
          rw [List.length_eraseIdx]
          simp only [hlt, if_pos]
          omega
        have hinv' : ∀ m' ∈ unc.filter (fun m => !best.covers m nv),
            ∃ p ∈ rem.eraseIdx (bestPick nv unc rem).2.toNat,
              p.covers m' nv = true := by
          intro m' hm'
          rw [List.mem_filter] at hm'
          obtain ⟨hm'unc, hm'cov⟩ := hm'
          obtain ⟨p, hp, hpcov⟩ := hinv m' hm'unc
          have hpne : p ≠ best := by
            intro hcontra
            rw [hcontra] at hpcov
            simp [hpcov] at hm'cov
          exact ⟨p, mem_eraseIdx_of_ne rem _ p best hp
            (List.getElem?_eq_getElem hlt) hpne, hpcov⟩
        exact ih _ _ _ hlen' hinv' m hm'

theorem greedyLoop_result_nonempty (nv : Nat) (fuel : Nat) (unc : List Int)
    (rem cover : List Implicant) (hu : ¬unc.isEmpty = true)
    (hr : rem ≠ []) (hf : 1 ≤ fuel) :
    greedyLoop nv fuel unc rem cover ≠ [] := by
  cases fuel with
  | zero => omega
  | succ fuel =>
      rw [greedyLoop]
      have hstop : ¬(unc.isEmpty || rem.isEmpty) = true := by
        simp only [Bool.or_eq_true, not_or]
        exact ⟨hu, by simpa using hr⟩
      rw [if_neg hstop]
      obtain ⟨hge, hlt⟩ := bestPick_bound nv unc rem hr
      rw [List.getElem?_eq_getElem hlt]
      intro hcontra
      have hmem : rem[(bestPick nv unc rem).2.toNat] ∈
          greedyLoop nv fuel (unc.filter fun m =>
            !(rem[(bestPick nv unc rem).2.toNat]).covers m nv)
            (rem.eraseIdx (bestPick nv unc rem).2.toNat)
            (cover ++ [rem[(bestPick nv unc rem).2.toNat]]) :=
        greedyLoop_cover_subset nv fuel _ _ _ _
          (List.mem_append.mpr (Or.inr (List.mem_singleton.mpr rfl)))
      have hcontra' : greedyLoop nv fuel (unc.filter fun m =>
            !(rem[(bestPick nv unc rem).2.toNat]).covers m nv)
            (rem.eraseIdx (bestPick nv unc rem).2.toNat)
            (cover ++ [rem[(bestPick nv unc rem).2.toNat]]) = [] := hcontra
      rw [hcontra'] at hmem
      cases hmem

/-! ### The minimal cover -/

theorem mem_uncoveredOf (nv : Nat) (ms : List Int) (ess : List Implicant)
    (m : Int) :
    m ∈ uncoveredOf nv ms ess ↔
      m ∈ ms ∧ ¬∃ e ∈ ess, e.covers m nv = true := by
  rw [uncoveredOf, mem_dedupAdjBy_int, mem_sortBy, List.mem_filter]
  simp [List.any_eq_true]

theorem mem_remainingOf (ess primes : List Implicant) (p : Implicant) :
    p ∈ remainingOf ess primes ↔
      p ∈ primes ∧ ¬∃ e ∈ ess, e.binary = p.binary := by
  rw [remainingOf, List.mem_filter]
  simp [List.any_eq_true]

theorem findMinimalCover_subset (nv : Nat) (ms : List Int)
    (ess primes : List Implicant) (x : Implicant)
    (hx : x ∈ findMinimalCover nv ms ess primes) : x ∈ ess ∨ x ∈ primes := by
  rw [findMinimalCover] at hx
  by_cases hemp : (uncoveredOf nv ms ess).isEmpty
  · rw [if_pos hemp] at hx
    exact Or.inl hx
  · rw [if_neg hemp] at hx
    rw [mem_sortBy] at hx
    rcases greedyLoop_mem nv _ _ _ _ x hx with h | h
    · exact Or.inl h
    · exact Or.inr ((mem_remainingOf ess primes x).mp h).1

theorem findMinimalCover_covers (nv : Nat) (ms : List Int)
    (ess primes : List Implicant)
    (hpc : ∀ m ∈ ms, ∃ p ∈ primes, p.covers m nv = true) :
    ∀ m ∈ ms, ∃ i ∈ findMinimalCover nv ms ess primes, i.covers m nv = true := by
  intro m hm
  rw [findMinimalCover]
  by_cases hemp : (uncoveredOf nv ms ess).isEmpty
  · rw [if_pos hemp]
    by_cases hc : ∃ e ∈ ess, e.covers m nv = true
    · exact hc
    · exfalso
      have : m ∈ uncoveredOf nv ms ess := (mem_uncoveredOf nv ms ess m).mpr ⟨hm, hc⟩
      rw [List.isEmpty_iff.mp hemp] at this
      cases this
  · rw [if_neg hemp]
    have hinv : ∀ m' ∈ uncoveredOf nv ms ess,
        ∃ p ∈ remainingOf ess primes, p.covers m' nv = true := by
      intro m' hm'
      obtain ⟨hm'ms, hm'un⟩ := (mem_uncoveredOf nv ms ess m').mp hm'
      obtain ⟨p, hp, hpcov⟩ := hpc m' hm'ms
      refine ⟨p, (mem_remainingOf ess primes p).mpr ⟨hp, ?_⟩, hpcov⟩
      rintro ⟨e, he, hebin⟩
      exact hm'un ⟨e, he, by rw [covers_congr p e hebin]; exact hpcov⟩
    by_cases hc : ∃ e ∈ ess, e.covers m nv = true
    · obtain ⟨e, he, hecov⟩ := hc
      refine ⟨e, ?_, hecov⟩
      rw [mem_sortBy]
      exact greedyLoop_cover_subset nv _ _ _ _ e he
    · have hmun : m ∈ uncoveredOf nv ms ess := (mem_uncoveredOf nv ms ess m).mpr ⟨hm, hc⟩
      obtain ⟨i, hi, hicov⟩ := greedyLoop_covers nv
        (remainingOf ess primes).length (uncoveredOf nv ms ess)
        (remainingOf ess primes) ess (le_refl _) hinv m hmun
      refine ⟨i, ?_, hicov⟩
      rw [mem_sortBy]
      exact hi

theorem findMinimalCover_ne_nil (nv : Nat) (ms : List Int)
    (ess primes : List Implicant) (hms : ms ≠ [])
    (hpc : ∀ m ∈ ms, ∃ p ∈ primes, p.covers m nv = true) :
    findMinimalCover nv ms ess primes ≠ [] := by
  rw [findMinimalCover]
  by_cases hemp : (uncoveredOf nv ms ess).isEmpty
  · rw [if_pos hemp]
    obtain ⟨m, hm⟩ := List.exists_mem_of_ne_nil ms hms
    by_cases hc : ∃ e ∈ ess, e.covers m nv = true
    · obtain ⟨e, he, _⟩ := hc
      exact List.ne_nil_of_mem he
    · exfalso
      have : m ∈ uncoveredOf nv ms ess := (mem_uncoveredOf nv ms ess m).mpr ⟨hm, hc⟩
      rw [List.isEmpty_iff.mp hemp] at this
      cases this
  · rw [if_neg hemp]
    have hne : uncoveredOf nv ms ess ≠ [] := by
      intro hcontra
      rw [hcontra] at hemp
      exact hemp rfl
    obtain ⟨m, hm⟩ := List.exists_mem_of_ne_nil _ hne
    obtain ⟨hm'ms, hm'un⟩ := (mem_uncoveredOf nv ms ess m).mp hm
    obtain ⟨p, hp, hpcov⟩ := hpc m hm'ms
    have hprem : p ∈ remainingOf ess primes := by
      refine (mem_remainingOf ess primes p).mpr ⟨hp, ?_⟩
      rintro ⟨e, he, hebin⟩
      exact hm'un ⟨e, he, by rw [covers_congr p e hebin]; exact hpcov⟩
    have hrne : remainingOf ess primes ≠ [] := List.ne_nil_of_mem hprem
    have hfuel : 1 ≤ (remainingOf ess primes).length := by
      cases h : remainingOf ess primes with
      | nil => exact absurd h hrne
      | cons a l => simp
    have := greedyLoop_result_nonempty nv (remainingOf ess primes).length
      (uncoveredOf nv ms ess) (remainingOf ess primes) ess
      (by simpa using hne) hrne hfuel
    intro hcontra
    cases h : greedyLoop nv (remainingOf ess primes).length
        (uncoveredOf nv ms ess) (remainingOf ess primes) ess with
    | nil => exact this h
    | cons y ys =>
        have hy : y ∈ sortBy (fun a b => strLt a.binary.data b.binary.data)
            (greedyLoop nv (remainingOf ess primes).length
              (uncoveredOf nv ms ess) (remainingOf ess primes) ess) := by
          rw [mem_sortBy, h]
          exact List.mem_cons_self _ _
        rw [hcontra] at hy
        cases hy

/-! ### Pipeline-level facts -/

theorem mem_allTermsOf (q : QM) (t : Int) :
    t ∈ allTermsOf q ↔ t ∈ q.minterms ∨ t ∈ q.dontcares := by
  rw [allTermsOf, mem_dedupAdjBy_int, mem_sortBy, List.mem_append]

theorem allTermsOf_range (q : QM)
    (hm : ∀ t ∈ q.minterms, inRange q.numVars t)
    (hd : ∀ t ∈ q.dontcares, inRange q.numVars t) :
    ∀ t ∈ allTermsOf q, inRange q.numVars t := by
  intro t ht
  rcases (mem_allTermsOf q t).mp ht with h | h
  · exact hm t h
  · exact hd t h

theorem qmPrimes_good (q : QM)
    (hm : ∀ t ∈ q.minterms, inRange q.numVars t)
    (hd : ∀ t ∈ q.dontcares, inRange q.numVars t) :
    ∀ p ∈ qmPrimes q, GoodImp q.numVars (allTermsOf q) p := by
  exact findPrimeImplicantsFuel_good (q.numVars + 1) q.numVars (allTermsOf q)
    (allTermsOf_range q hm hd) (le_refl _)

theorem qmPrimes_covers (q : QM)
    (hm : ∀ t ∈ q.minterms, inRange q.numVars t)
    (hd : ∀ t ∈ q.dontcares, inRange q.numVars t) :
    ∀ t ∈ allTermsOf q, ∃ p ∈ qmPrimes q, p.covers t q.numVars = true := by
  exact findPrimeImplicantsFuel_covers (q.numVars + 1) q.numVars (allTermsOf q)
    (allTermsOf_range q hm hd) (le_refl _)

theorem qmEssentials_good (q : QM)
    (hm : ∀ t ∈ q.minterms, inRange q.numVars t)
    (hd : ∀ t ∈ q.dontcares, inRange q.numVars t) :
    ∀ e ∈ qmEssentials q, GoodImp q.numVars (allTermsOf q) e := by
  intro e he
  obtain ⟨p, hp, rfl⟩ := mem_findEssentialPrimes _ _ _ e he
  exact goodImp_setEssential _ _ p (qmPrimes_good q hm hd p hp)

theorem qmCover_good (q : QM)
    (hm : ∀ t ∈ q.minterms, inRange q.numVars t)
    (hd : ∀ t ∈ q.dontcares, inRange q.numVars t) :
    ∀ x ∈ qmCover q, GoodImp q.numVars (allTermsOf q) x := by
  intro x hx
  rcases findMinimalCover_subset _ _ _ _ x hx with h | h
  · exact qmEssentials_good q hm hd x h
  · exact qmPrimes_good q hm hd x h

theorem qmCover_covers (q : QM)
    (hm : ∀ t ∈ q.minterms, inRange q.numVars t)
    (hd : ∀ t ∈ q.dontcares, inRange q.numVars t) :
    ∀ m ∈ q.minterms, ∃ i ∈ qmCover q, i.covers m q.numVars = true := by
  refine findMinimalCover_covers _ _ _ _ ?_
  intro m hmem
  exact qmPrimes_covers q hm hd m ((mem_allTermsOf q m).mpr (Or.inl hmem))

theorem qmCover_ne_nil (q : QM) (hne : q.minterms ≠ [])
    (hm : ∀ t ∈ q.minterms, inRange q.numVars t)
    (hd : ∀ t ∈ q.dontcares, inRange q.numVars t) :
    qmCover q ≠ [] := by
  refine findMinimalCover_ne_nil _ _ _ _ hne ?_
  intro m hmem
  exact qmPrimes_covers q hm hd m ((mem_allTermsOf q m).mpr (Or.inl hmem))

theorem minimize_ok (q : QM) (h8 : q.numVars ≤ 8)
    (hm : ∀ t ∈ q.minterms, inRange q.numVars t)
    (hd : ∀ t ∈ q.dontcares, inRange q.numVars t) :
    minimizeResult q = .ok (formatSOP q.varNames (qmCover q)) := by
  rw [minimizeResult, minimize, minimizeFuel]
  rw [if_neg (by omega)]
  have hmf : q.minterms.find?
      (fun t => decide (t < 0) || decide ((2 : Int) ^ q.numVars - 1 < t)) = none := by
    rw [List.find?_eq_none]
    intro t ht
    obtain ⟨h0, h1⟩ := hm t ht
    simp only [Bool.or_eq_true, decide_eq_true_eq, not_or]
    omega
  have hdf : q.dontcares.find?
      (fun t => decide (t < 0) || decide ((2 : Int) ^ q.numVars - 1 < t)) = none := by
    rw [List.find?_eq_none]
    intro t ht
    obtain ⟨h0, h1⟩ := hd t ht
    simp only [Bool.or_eq_true, decide_eq_true_eq, not_or]
    omega
  rw [hmf, hdf]
  rfl

/-! ### Letters and the SOP evaluator -/

theorem char_ofNat_toNat (i : Nat) (hi : i < 8) :
    (Char.ofNat (65 + i)).toNat = 65 + i := by
  interval_cases i <;> decide

theorem letter_ne_space (i : Nat) (hi : i < 8) : Char.ofNat (65 + i) ≠ ' ' := by
  interval_cases i <;> decide

theorem letter_ne_apos (i : Nat) (hi : i < 8) : Char.ofNat (65 + i) ≠ apos := by
  interval_cases i <;> decide

theorem letter_ne_zero (i : Nat) (hi : i < 8) : Char.ofNat (65 + i) ≠ '0' := by
  interval_cases i <;> decide

theorem letter_ne_one (i : Nat) (hi : i < 8) : Char.ofNat (65 + i) ≠ '1' := by
  interval_cases i <;> decide

theorem varBit_letter (nv : Nat) (t : Int) (i : Nat) (hi : i < 8) :
    varBit nv t (Char.ofNat (65 + i)) = t.toNat.testBit (nv - 1 - i) := by
  rw [varBit, char_ofNat_toNat i hi]
  congr 1
  omega

theorem mem_varNamesFor (nv : Nat) (v : Char) :
    v ∈ varNamesFor nv ↔ ∃ i, i < nv ∧ v = Char.ofNat (65 + i) := by
  rw [varNamesFor, List.mem_map]
  constructor
  · rintro ⟨i, hi, rfl⟩
    exact ⟨i, List.mem_range.mp hi, rfl⟩
  · rintro ⟨i, hi, rfl⟩
    exact ⟨i, List.mem_range.mpr hi, rfl⟩

theorem evalSOPAux_nil (nv : Nat) (t : Int) (acc : Bool) :
    evalSOPAux nv t acc [] = acc := rfl

theorem evalSOPAux_sep (nv : Nat) (t : Int) (acc : Bool) (x y : Char)
    (rest : List Char) :
    evalSOPAux nv t acc (' ' :: x :: y :: rest) =
      (acc || evalSOPAux nv t true rest) := rfl

set_option smartUnfolding false in
theorem evalSOPAux_letter_apos (nv : Nat) (t : Int) (acc : Bool) (i : Nat)
    (hi : i < 8) (rest : List Char) :
    evalSOPAux nv t acc (Char.ofNat (65 + i) :: apos :: rest) =
      evalSOPAux nv t (acc && !varBit nv t (Char.ofNat (65 + i))) rest := by
  interval_cases i <;> rfl

set_option smartUnfolding false in
theorem evalSOPAux_letter_letter (nv : Nat) (t : Int) (acc : Bool) (i j : Nat)
    (hi : i < 8) (hj : j < 8) (rest : List Char) :
    evalSOPAux nv t acc (Char.ofNat (65 + i) :: Char.ofNat (65 + j) :: rest) =
      evalSOPAux nv t (acc && varBit nv t (Char.ofNat (65 + i)))
        (Char.ofNat (65 + j) :: rest) := by
  interval_cases i <;> interval_cases j <;> rfl

set_option smartUnfolding false in
theorem evalSOPAux_letter_space (nv : Nat) (t : Int) (acc : Bool) (i : Nat)
    (hi : i < 8) (rest : List Char) :
    evalSOPAux nv t acc (Char.ofNat (65 + i) :: ' ' :: rest) =
      evalSOPAux nv t (acc && varBit nv t (Char.ofNat (65 + i))) (' ' :: rest) := by
  interval_cases i <;> rfl

set_option smartUnfolding false in
theorem evalSOPAux_letter_single (nv : Nat) (t : Int) (acc : Bool) (i : Nat)
    (hi : i < 8) :
    evalSOPAux nv t acc [Char.ofNat (65 + i)] =
      (acc && varBit nv t (Char.ofNat (65 + i))) := by
  interval_cases i <;> rfl

theorem termChars_head_letters (pairs : List (Char × Char)) (d : Char)
    (h : (termChars pairs).head? = some d) : ∃ p ∈ pairs, d = p.2 := by
  induction pairs with
  | nil => cases h
  | cons p rest ih =>
      obtain ⟨c, v⟩ := p
      simp only [termChars] at h
      by_cases hc0 : c = '0'
      · rw [if_pos hc0] at h
        simp only [List.cons_append, List.head?_cons, Option.some_inj] at h
        exact ⟨(c, v), List.mem_cons_self _ _, h.symm⟩
      · rw [if_neg hc0] at h
        by_cases hc1 : c = '1'
        · rw [if_pos hc1] at h
          simp only [List.cons_append, List.head?_cons, Option.some_inj] at h
          exact ⟨(c, v), List.mem_cons_self _ _, h.symm⟩
        · rw [if_neg hc1] at h
          simp only [List.nil_append] at h
          obtain ⟨p, hp, rfl⟩ := ih h
          exact ⟨p, List.mem_cons_of_mem _ hp, rfl⟩

theorem termChars_nil_all (pairs : List (Char × Char))
    (h : termChars pairs = []) :
    ∀ p ∈ pairs, p.1 ≠ '0' ∧ p.1 ≠ '1' := by
  induction pairs with
  | nil => intro p hp; cases hp
  | cons p rest ih =>
      obtain ⟨c, v⟩ := p
      simp only [termChars] at h
      by_cases hc0 : c = '0'
      · rw [if_pos hc0] at h
        cases h
      · rw [if_neg hc0] at h
        by_cases hc1 : c = '1'
        · rw [if_pos hc1] at h
          cases h
        · rw [if_neg hc1] at h
          simp only [List.nil_append] at h
          intro p hp
          rcases List.mem_cons.mp hp with rfl | hp
          · exact ⟨hc0, hc1⟩
          · exact ih h p hp

theorem all_true_of_no_digits (nv : Nat) (t : Int) (pairs : List (Char × Char))
    (h : ∀ p ∈ pairs, p.1 ≠ '0' ∧ p.1 ≠ '1') :
    (pairs.all fun p =>
      if p.1 = '0' then !varBit nv t p.2
      else if p.1 = '1' then varBit nv t p.2 else true) = true := by
  rw [List.all_eq_true]
  intro p hp
  obtain ⟨h0, h1⟩ := h p hp
  simp [h0, h1]

theorem evalSOPAux_termChars (nv : Nat) (t : Int) :
    ∀ (pairs : List (Char × Char)) (acc : Bool) (tail : List Char),
      (∀ p ∈ pairs, validChar p.1 ∧ ∃ i, i < 8 ∧ p.2 = Char.ofNat (65 + i)) →
      (tail = [] ∨ ∃ rest, tail = ' ' :: rest) →
      evalSOPAux nv t acc (termChars pairs ++ tail) =
        evalSOPAux nv t (acc && (pairs.all fun p =>
          if p.1 = '0' then !varBit nv t p.2
          else if p.1 = '1' then varBit nv t p.2 else true)) tail := by
  intro pairs
  induction pairs with
  | nil =>
      intro acc tail _ _
      simp only [termChars, List.nil_append, List.all_nil, Bool.and_true]
  | cons p rest ih =>
      intro acc tail hp htail
      obtain ⟨c, v⟩ := p
      obtain ⟨hval, i, hi, rfl⟩ := hp (c, v) (List.mem_cons_self _ _)
      have hrest := fun p hmem => hp p (List.mem_cons_of_mem _ hmem)
      by_cases hc0 : c = '0'
      · subst hc0
        have hshape : termChars (('0', Char.ofNat (65 + i)) :: rest) =
            Char.ofNat (65 + i) :: apos :: termChars rest := by
          simp [termChars]
        have hall : ((('0', Char.ofNat (65 + i)) :: rest).all fun p =>
            if p.1 = '0' then !varBit nv t p.2
            else if p.1 = '1' then varBit nv t p.2 else true) =
            (!varBit nv t (Char.ofNat (65 + i)) && rest.all fun p =>
              if p.1 = '0' then !varBit nv t p.2
              else if p.1 = '1' then varBit nv t p.2 else true) := by
          simp
        rw [hshape, List.cons_append, List.cons_append,
          evalSOPAux_letter_apos nv t acc i hi, ih _ _ hrest htail, hall,
          Bool.and_assoc]
      · by_cases hc1 : c = '1'
        · subst hc1
          have hshape : termChars (('1', Char.ofNat (65 + i)) :: rest) =
              Char.ofNat (65 + i) :: termChars rest := by
            simp [termChars]
          have hall : ((('1', Char.ofNat (65 + i)) :: rest).all fun p =>
              if p.1 = '0' then !varBit nv t p.2
              else if p.1 = '1' then varBit nv t p.2 else true) =
              (varBit nv t (Char.ofNat (65 + i)) && rest.all fun p =>
                if p.1 = '0' then !varBit nv t p.2
                else if p.1 = '1' then varBit nv t p.2 else true) := by
            simp
          have hstep : evalSOPAux nv t acc
              (Char.ofNat (65 + i) :: (termChars rest ++ tail)) =
              evalSOPAux nv t (acc && varBit nv t (Char.ofNat (65 + i)))
                (termChars rest ++ tail) := by
            cases htc : termChars rest with
            | nil =>
                rcases htail with rfl | ⟨r, rfl⟩
                · simpa using evalSOPAux_letter_single nv t acc i hi
                · simpa using evalSOPAux_letter_space nv t acc i hi r
            | cons e l =>
                obtain ⟨p, hpmem, rfl⟩ := termChars_head_letters rest e (by
                  rw [htc]; rfl)
                obtain ⟨_, j, hj, hpj⟩ := hrest p hpmem
                rw [List.cons_append, hpj]
                exact evalSOPAux_letter_letter nv t acc i j hi hj _
          rw [hshape, List.cons_append, hstep, ih _ _ hrest htail, hall,
            Bool.and_assoc]
        · have hshape : termChars ((c, Char.ofNat (65 + i)) :: rest) =
              termChars rest := by
            simp [termChars, hc0, hc1]
          have hall : (((c, Char.ofNat (65 + i)) :: rest).all fun p =>
              if p.1 = '0' then !varBit nv t p.2
              else if p.1 = '1' then varBit nv t p.2 else true) =
              (rest.all fun p =>
                if p.1 = '0' then !varBit nv t p.2
                else if p.1 = '1' then varBit nv t p.2 else true) := by
            simp [hc0, hc1]
          rw [hshape, ih _ _ hrest htail, hall]

theorem all_lit_eq_coversC (nv : Nat) (t : Int) :
    ∀ (pat letters tb : List Char),
      pat.length = letters.length → pat.length = tb.length →
      (∀ c ∈ pat, validChar c) →
      (∀ c ∈ tb, c = '0' ∨ c = '1') →
      List.Forall₂ (fun v c => varBit nv t v = (c == '1')) letters tb →
      ((pat.zip letters).all fun p =>
        if p.1 = '0' then !varBit nv t p.2
        else if p.1 = '1' then varBit nv t p.2 else true) = coversC pat tb := by
  intro pat
  induction pat with
  | nil =>
      intro letters tb _ _ _ _ _
      simp [coversC]
  | cons x xs ihp =>
      intro letters tb hlen1 hlen2 hch htb hrel
      cases letters with
      | nil => cases hlen1
      | cons y ys =>
          cases tb with
          | nil => cases hlen2
          | cons c cb =>
              cases hrel with
              | cons hhead htailrel =>
                  rw [List.zip_cons_cons, List.all_cons, coversC_cons,
                    ihp ys cb (by simpa using hlen1) (by simpa using hlen2)
                      (fun c hc => hch c (List.mem_cons_of_mem _ hc))
                      (fun c hc => htb c (List.mem_cons_of_mem _ hc)) htailrel]
                  congr 1
                  rcases htb c (List.mem_cons_self _ _) with rfl | rfl <;>
                    rcases hch x (List.mem_cons_self _ _) with rfl | rfl | rfl <;>
                    simp [hhead]

theorem forallTwo_varNames_intToBinary (nv : Nat) (t : Int) (h8 : nv ≤ 8) :
    List.Forall₂ (fun v c => varBit nv t v = (c == '1'))
      (varNamesFor nv) (intToBinary t nv).data := by
  rw [varNamesFor, intToBinary]
  show List.Forall₂ _ _ (((List.range nv).map _))
  rw [List.forall₂_map_right_iff, List.forall₂_map_left_iff]
  refine List.forall₂_same.mpr ?_
  intro i hi
  rw [varBit_letter nv t i (by have := List.mem_range.mp hi; omega)]
  by_cases hb : t.toNat.testBit (nv - 1 - i) <;> simp [hb]

theorem prodVal_covers (nv : Nat) (t : Int) (h8 : nv ≤ 8) (pat : List Char)
    (hlen : pat.length = nv) (hch : ∀ c ∈ pat, validChar c) :
    ((pat.zip (varNamesFor nv)).all fun p =>
      if p.1 = '0' then !varBit nv t p.2
      else if p.1 = '1' then varBit nv t p.2 else true) =
      coversC pat (intToBinary t nv).data := by
  refine all_lit_eq_coversC nv t pat (varNamesFor nv) (intToBinary t nv).data
    ?_ ?_ hch ?_ (forallTwo_varNames_intToBinary nv t h8)
  · rw [hlen, varNamesFor, List.length_map, List.length_range]
  · rw [hlen, length_intToBinary]
  · exact intToBinary_chars t nv

/-! ### The formatter -/

theorem binaryToTerm_data (vn : List Char) (b : String) :
    (binaryToTerm vn b).data = termChars (b.data.zip vn) := rfl

theorem joinSep_cons₂ (sep x y : List Char) (rest : List (List Char)) :
    joinSep sep (x :: y :: rest) = x ++ sep ++ joinSep sep (y :: rest) := rfl

theorem termChars_ne_nil (pairs : List (Char × Char))
    (h : ∃ p ∈ pairs, p.1 = '0' ∨ p.1 = '1') : termChars pairs ≠ [] := by
  induction pairs with
  | nil => obtain ⟨p, hp, _⟩ := h; cases hp
  | cons q rest ih =>
      obtain ⟨c, v⟩ := q
      obtain ⟨p, hp, hdig⟩ := h
      simp only [termChars]
      rcases List.mem_cons.mp hp with rfl | hp
      · rcases hdig with h0 | h1
        · have h0' : c = '0' := h0
          rw [if_pos h0']
          simp
        · have h1' : c = '1' := h1
          rw [if_neg (by rw [h1']; decide), if_pos h1']
          simp
      · intro hcontra
        rcases List.append_eq_nil.mp hcontra with ⟨_, h2⟩
        exact ih ⟨p, hp, hdig⟩ h2

theorem zip_pair_exists (pat vn : List Char) (c : Char) (hc : c ∈ pat)
    (hlen : pat.length = vn.length) : ∃ p ∈ pat.zip vn, p.1 = c := by
  obtain ⟨i, hi, rfl⟩ := List.mem_iff_getElem.mp hc
  have hi2 : i < vn.length := by omega
  have hiz : i < (pat.zip vn).length := by
    simp only [List.length_zip]
    omega
  have hz : (pat.zip vn).get ⟨i, hiz⟩ = (pat[i], vn[i]) := List.getElem_zip
  have hmem : (pat.zip vn).get ⟨i, hiz⟩ ∈ pat.zip vn := by apply List.get_mem
  rw [hz] at hmem
  exact ⟨(pat[i], vn[i]), hmem, rfl⟩

theorem binaryToTerm_ne_empty (nv : Nat) (imp : Implicant)
    (hlen : imp.binary.data.length = nv)
    (hdig : ∃ c ∈ imp.binary.data, c = '0' ∨ c = '1') :
    ¬(binaryToTerm (varNamesFor nv) imp.binary).isEmpty = true := by
  rw [String.isEmpty_iff]
  intro hcontra
  have hdata : (binaryToTerm (varNamesFor nv) imp.binary).data = [] := by
    rw [hcontra]
  rw [binaryToTerm_data] at hdata
  obtain ⟨c, hc, hcd⟩ := hdig
  obtain ⟨p, hp, hpc⟩ := zip_pair_exists imp.binary.data (varNamesFor nv) c hc
    (by rw [hlen, varNamesFor, List.length_map, List.length_range])
  exact termChars_ne_nil _ ⟨p, hp, hpc ▸ hcd⟩ hdata

theorem sopTerms_data (vn : List Char) :
    ∀ cover : List Implicant,
      (∀ imp ∈ cover, ¬(binaryToTerm vn imp.binary).isEmpty = true) →
      (sopTerms vn cover).data =
        joinSep [' ', '+', ' ']
          (cover.map fun imp => (binaryToTerm vn imp.binary).data) := by
  intro cover
  induction cover with
  | nil => intro _; rfl
  | cons imp rest ih =>
      intro hne
      cases rest with
      | nil => rfl
      | cons b rest₂ =>
          show ((if (binaryToTerm vn imp.binary).isEmpty then ""
            else binaryToTerm vn imp.binary ++ " + ") ++ sopTerms vn (b :: rest₂)).data = _
          rw [if_neg (hne imp (List.mem_cons_self _ _))]
          have hdata : ((binaryToTerm vn imp.binary ++ " + ") ++ sopTerms vn (b :: rest₂)).data =
              (binaryToTerm vn imp.binary).data ++ [' ', '+', ' '] ++
                (sopTerms vn (b :: rest₂)).data := by
            simp
          rw [hdata, ih (fun i hi => hne i (List.mem_cons_of_mem _ hi))]
          simp only [List.map_cons]
          rw [joinSep_cons₂]

theorem zip_letters_hyp (nv : Nat) (h8 : nv ≤ 8) (pat : List Char)
    (hch : ∀ c ∈ pat, validChar c) :
    ∀ p ∈ pat.zip (varNamesFor nv),
      validChar p.1 ∧ ∃ i, i < 8 ∧ p.2 = Char.ofNat (65 + i) := by
  intro p hp
  obtain ⟨h1, h2⟩ := List.of_mem_zip hp
  obtain ⟨i, hi, hpi⟩ := (mem_varNamesFor nv p.2).mp h2
  exact ⟨hch p.1 h1, i, by omega, hpi⟩

theorem evalSOPAux_joinSep (nv : Nat) (t : Int) (h8 : nv ≤ 8) :
    ∀ cover : List Implicant, cover ≠ [] →
      (∀ imp ∈ cover,
        (∀ c ∈ imp.binary.data, validChar c) ∧ imp.binary.data.length = nv) →
      evalSOPAux nv t true (joinSep [' ', '+', ' ']
        (cover.map fun imp => (binaryToTerm (varNamesFor nv) imp.binary).data)) =
        cover.any fun imp => imp.covers t nv := by
  intro cover
  induction cover with
  | nil => intro h _; exact absurd rfl h
  | cons imp rest ih =>
      intro _ hgood
      obtain ⟨hch, hlen⟩ := hgood imp (List.mem_cons_self _ _)
      have hT := evalSOPAux_termChars nv t (imp.binary.data.zip (varNamesFor nv))
      have hprod := prodVal_covers nv t h8 imp.binary.data hlen hch
      cases rest with
      | nil =>
          simp only [List.map_cons, List.map_nil]
          show evalSOPAux nv t true (termChars (imp.binary.data.zip (varNamesFor nv))) = _
          rw [← List.append_nil (termChars (imp.binary.data.zip (varNamesFor nv)))]
          rw [hT true [] (zip_letters_hyp nv h8 _ hch) (Or.inl rfl)]
          rw [evalSOPAux_nil, Bool.true_and, hprod]
          simp [Implicant.covers]
      | cons b rest₂ =>
          have ih' := ih (by simp) (fun i hi => hgood i (List.mem_cons_of_mem _ hi))
          simp only [List.map_cons] at ih' ⊢
          rw [joinSep_cons₂, List.append_assoc]
          simp only [List.cons_append, List.nil_append]
          rw [binaryToTerm_data, hT true _ (zip_letters_hyp nv h8 _ hch)
            (Or.inr ⟨_, rfl⟩)]
          rw [evalSOPAux_sep, Bool.true_and, ih']
          rw [hprod, List.any_cons]
          congr 1

theorem formatSOP_nil (vn : List Char) : formatSOP vn [] = "0" := rfl

theorem formatSOP_allDash (vn : List Char) (cover : List Implicant)
    (imp : Implicant) (himp : imp ∈ cover)
    (hdash : ∀ c ∈ imp.binary.data, c = '-') : formatSOP vn cover = "1" := by
  rw [formatSOP]
  have hne : ¬cover.isEmpty = true := by
    cases cover with
    | nil => cases himp
    | cons a l => simp
  rw [if_neg hne]
  have hany : (cover.any fun imp =>
      !imp.binary.data.contains '0' && !imp.binary.data.contains '1') = true := by
    rw [List.any_eq_true]
    refine ⟨imp, himp, ?_⟩
    have h0 : imp.binary.data.contains '0' = false := by
      cases hc : imp.binary.data.contains '0'
      · rfl
      · exact absurd (hdash '0' (List.elem_iff.mp hc)) (by decide)
    have h1 : imp.binary.data.contains '1' = false := by
      cases hc : imp.binary.data.contains '1'
      · rfl
      · exact absurd (hdash '1' (List.elem_iff.mp hc)) (by decide)
    rw [h0, h1]
    rfl
  rw [hany]
  rfl

theorem joinSep_ne_nil (sep x : List Char) (rest : List (List Char))
    (hx : x ≠ []) : joinSep sep (x :: rest) ≠ [] := by
  cases rest with
  | nil => exact hx
  | cons y rest₂ =>
      rw [joinSep_cons₂]
      intro hcontra
      rcases List.append_eq_nil.mp hcontra with ⟨h1, _⟩
      rcases List.append_eq_nil.mp h1 with ⟨h2, _⟩
      exact hx h2

theorem joinSep_head (sep x : List Char) (rest : List (List Char))
    (hx : x ≠ []) : (joinSep sep (x :: rest)).head? = x.head? := by
  cases rest with
  | nil => rfl
  | cons y rest₂ =>
      rw [joinSep_cons₂]
      cases x with
      | nil => exact absurd rfl hx
      | cons c x' => rfl

theorem formatSOP_eval_general (nv : Nat) (t : Int) (h8 : nv ≤ 8)
    (cover : List Implicant) (hne : cover ≠ [])
    (hgood : ∀ imp ∈ cover,
      (∀ c ∈ imp.binary.data, validChar c) ∧ imp.binary.data.length = nv)
    (hnd : (cover.any fun imp =>
      !imp.binary.data.contains '0' && !imp.binary.data.contains '1') = false) :
    sopEval nv (formatSOP (varNamesFor nv) cover) t =
      cover.any fun imp => imp.covers t nv := by
  have hdig : ∀ imp ∈ cover, ∃ c ∈ imp.binary.data, c = '0' ∨ c = '1' := by
    intro imp himp
    have := List.any_eq_false.mp hnd imp himp
    rw [Bool.and_eq_true, Bool.not_eq_true', Bool.not_eq_true'] at this
    rw [Decidable.not_and_iff_or_not] at this
    rcases this with h | h
    · have : imp.binary.data.contains '0' = true := by
        cases hc : imp.binary.data.contains '0'
        · exact absurd hc h
        · rfl
      exact ⟨'0', List.elem_iff.mp this, Or.inl rfl⟩
    · have : imp.binary.data.contains '1' = true := by
        cases hc : imp.binary.data.contains '1'
        · exact absurd hc h
        · rfl
      exact ⟨'1', List.elem_iff.mp this, Or.inr rfl⟩
  have hterm : ∀ imp ∈ cover,
      ¬(binaryToTerm (varNamesFor nv) imp.binary).isEmpty = true := by
    intro imp himp
    exact binaryToTerm_ne_empty nv imp (hgood imp himp).2 (hdig imp himp)
  have hsopdata : (sopTerms (varNamesFor nv) cover).data =
      joinSep [' ', '+', ' ']
        (cover.map fun imp => (binaryToTerm (varNamesFor nv) imp.binary).data) :=
    sopTerms_data (varNamesFor nv) cover hterm
  obtain ⟨imp₀, rest₀, rfl⟩ : ∃ imp₀ rest₀, cover = imp₀ :: rest₀ := by
    cases cover with
    | nil => exact absurd rfl hne
    | cons a l => exact ⟨a, l, rfl⟩
  have hterm₀ : termChars (imp₀.binary.data.zip (varNamesFor nv)) ≠ [] := by
    intro hcontra
    have := binaryToTerm_ne_empty nv imp₀ (hgood imp₀ (List.mem_cons_self _ _)).2
      (hdig imp₀ (List.mem_cons_self _ _))
    rw [String.isEmpty_iff, String.ext_iff] at this
    exact this (by rw [binaryToTerm_data, hcontra])
  have hmap : ((imp₀ :: rest₀).map fun imp =>
      (binaryToTerm (varNamesFor nv) imp.binary).data) =
      termChars (imp₀.binary.data.zip (varNamesFor nv)) ::
        (rest₀.map fun imp => (binaryToTerm (varNamesFor nv) imp.binary).data) := by
    rw [List.map_cons, binaryToTerm_data]
  have hsopne : (sopTerms (varNamesFor nv) (imp₀ :: rest₀)).data ≠ [] := by
    rw [hsopdata, hmap]
    exact joinSep_ne_nil _ _ _ hterm₀
  have hhead : ∃ d, (sopTerms (varNamesFor nv) (imp₀ :: rest₀)).data.head? = some d ∧
      d ≠ '0' ∧ d ≠ '1' := by
    rw [hsopdata, hmap, joinSep_head _ _ _ hterm₀]
    cases htc : termChars (imp₀.binary.data.zip (varNamesFor nv)) with
    | nil => exact absurd htc hterm₀
    | cons d l =>
        obtain ⟨p, hp, rfl⟩ := termChars_head_letters _ d (by rw [htc]; rfl)
        obtain ⟨_, i, hi, hpi⟩ := zip_letters_hyp nv h8 imp₀.binary.data
          (hgood imp₀ (List.mem_cons_self _ _)).1 p hp
        refine ⟨p.2, rfl, ?_, ?_⟩
        · rw [hpi]; exact letter_ne_zero i hi
        · rw [hpi]; exact letter_ne_one i hi
  have hfmt : formatSOP (varNamesFor nv) (imp₀ :: rest₀) =
      sopTerms (varNamesFor nv) (imp₀ :: rest₀) := by
    rw [formatSOP, if_neg (by simp), hnd]
    rw [if_neg (by simp), if_neg (by
      rw [String.isEmpty_iff, String.ext_iff]
      intro hcontra
      exact hsopne (by rw [hcontra]))]
  rw [hfmt, sopEval]
  obtain ⟨d, hd, hd0, hd1⟩ := hhead
  rw [if_neg (by
    intro hcontra
    rw [String.ext_iff] at hcontra
    rw [hcontra] at hd
    simp at hd
    exact hd0 hd.symm)]
  rw [if_neg (by
    intro hcontra
    rw [String.ext_iff] at hcontra
    rw [hcontra] at hd
    simp at hd
    exact hd1 hd.symm)]
  rw [hsopdata]
  exact evalSOPAux_joinSep nv t h8 (imp₀ :: rest₀) hne hgood

/-! ### Round-indexed groups -/

theorem groupsAt_succ (nv : Nat) (terms : List Int) (k : Nat) :
    groupsAt nv terms (k + 1) = buildGroups (roundMerges (groupsAt nv terms k)) := rfl

theorem groupsAt_inv (nv : Nat) (terms : List Int)
    (hrange : ∀ t ∈ terms, inRange nv t) :
    ∀ k, ∀ imp ∈ flatGroups (groupsAt nv terms k),
      GoodImp nv terms imp ∧ dashCount imp.binary.data = k := by
  intro k
  induction k with
  | zero => exact initGroups_inv nv terms hrange
  | succ k ih =>
      intro imp himp
      rw [groupsAt_succ, mem_flatGroups_buildGroups] at himp
      obtain ⟨a, b, ha, hb, hcm, rfl⟩ := mem_roundMerges _ imp himp
      have hga := ih a ha
      have hgb := ih b hb
      have hg := merge_good nv terms a b hga.1 hgb.1 (hga.2.trans hgb.2.symm) hcm
      exact ⟨hg.1, by rw [hg.2, hga.2]⟩

/-! ### Error characterization and state -/

theorem minimize_state (q : QM) : (minimize q).2 = q := by
  rw [minimize, minimizeFuel]
  by_cases h8 : q.numVars > 8
  · rw [if_pos h8]
  · rw [if_neg h8]
    cases q.minterms.find?
        (fun t => decide (t < 0) || decide ((2 : Int) ^ q.numVars - 1 < t)) with
    | some t => rfl
    | none =>
        cases q.dontcares.find?
            (fun t => decide (t < 0) || decide ((2 : Int) ^ q.numVars - 1 < t)) with
        | some t => rfl
        | none => rfl

theorem minimizeFuel_state (fuel : Nat) (q : QM) : (minimizeFuel fuel q).2 = q := by
  rw [minimizeFuel]
  by_cases h8 : q.numVars > 8
  · rw [if_pos h8]
  · rw [if_neg h8]
    cases q.minterms.find?
        (fun t => decide (t < 0) || decide ((2 : Int) ^ q.numVars - 1 < t)) with
    | some t => rfl
    | none =>
        cases q.dontcares.find?
            (fun t => decide (t < 0) || decide ((2 : Int) ^ q.numVars - 1 < t)) with
        | some t => rfl
        | none => rfl

theorem minimize_varLimit_iff (q : QM) :
    minimizeResult q = .error .varLimit ↔ 8 < q.numVars := by
  rw [minimizeResult, minimize, minimizeFuel]
  by_cases h8 : q.numVars > 8
  · rw [if_pos h8]
    simp [h8]
  · rw [if_neg h8]
    constructor
    · intro hcontra
      exfalso
      cases hf : q.minterms.find?
          (fun t => decide (t < 0) || decide ((2 : Int) ^ q.numVars - 1 < t)) with
      | some t => rw [hf] at hcontra; cases hcontra
      | none =>
          rw [hf] at hcontra
          cases hg : q.dontcares.find?
              (fun t => decide (t < 0) || decide ((2 : Int) ^ q.numVars - 1 < t)) with
          | some t => rw [hg] at hcontra; cases hcontra
          | none => rw [hg] at hcontra; cases hcontra
    · intro h
      omega

theorem minimize_termRange_iff (q : QM) (h8 : q.numVars ≤ 8) :
    (∃ e, minimizeResult q = .error e ∧ e.isTermRange = true) ↔
      (∃ t, (t ∈ q.minterms ∨ t ∈ q.dontcares) ∧
        (t < 0 ∨ 2 ^ q.numVars - 1 < t)) := by
  rw [minimizeResult, minimize, minimizeFuel, if_neg (by omega)]
  cases hf : q.minterms.find?
      (fun t => decide (t < 0) || decide ((2 : Int) ^ q.numVars - 1 < t)) with
  | some t =>
      have hmem := List.mem_of_find?_eq_some hf
      have hpred := List.find?_some hf
      rw [Bool.or_eq_true, decide_eq_true_eq, decide_eq_true_eq] at hpred
      constructor
      · intro _
        exact ⟨t, Or.inl hmem, hpred⟩
      · intro _
        exact ⟨.mintermRange t, rfl, rfl⟩
  | none =>
      cases hg : q.dontcares.find?
          (fun t => decide (t < 0) || decide ((2 : Int) ^ q.numVars - 1 < t)) with
      | some t =>
          have hmem := List.mem_of_find?_eq_some hg
          have hpred := List.find?_some hg
          rw [Bool.or_eq_true, decide_eq_true_eq, decide_eq_true_eq] at hpred
          constructor
          · intro _
            exact ⟨t, Or.inr hmem, hpred⟩
          · intro _
            exact ⟨.dontCareRange t, rfl, rfl⟩
      | none =>
          constructor
          · rintro ⟨e, he, _⟩
            cases he
          · rintro ⟨t, hmem, hbad⟩
            exfalso
            rcases hmem with hmem | hmem
            · have := List.find?_eq_none.mp hf t hmem
              simp only [Bool.or_eq_true, decide_eq_true_eq, not_or] at this
              omega
            · have := List.find?_eq_none.mp hg t hmem
              simp only [Bool.or_eq_true, decide_eq_true_eq, not_or] at this
              omega

/-! ### Fuel stability -/

theorem qmCoverFuel_stable (q : QM) (k : Nat)
    (hm : ∀ t ∈ q.minterms, inRange q.numVars t)
    (hd : ∀ t ∈ q.dontcares, inRange q.numVars t) :
    qmCoverFuel (q.numVars + 1 + k) q = qmCover q := by
  rw [qmCoverFuel, qmCover, qmCoverFuel, qmPrimesFuel, qmPrimesFuel,
    findPrimeImplicantsFuel_stable _ _ _ (allTermsOf_range q hm hd) (by omega),
    findPrimeImplicantsFuel_stable _ _ _ (allTermsOf_range q hm hd) (by omega)]

theorem minimizeFuel_stable (q : QM) (k : Nat) :
    minimizeFuelResult (q.numVars + 1 + k) q = minimizeResult q := by
  rw [minimizeFuelResult, minimizeResult, minimize, minimizeFuel, minimizeFuel]
  by_cases h8 : q.numVars > 8
  · rw [if_pos h8, if_pos h8]
  · rw [if_neg h8, if_neg h8]
    cases hf : q.minterms.find?
        (fun t => decide (t < 0) || decide ((2 : Int) ^ q.numVars - 1 < t)) with
    | some t => rfl
    | none =>
        cases hg : q.dontcares.find?
            (fun t => decide (t < 0) || decide ((2 : Int) ^ q.numVars - 1 < t)) with
        | some t => rfl
        | none =>
            have hm : ∀ t ∈ q.minterms, inRange q.numVars t := by
              intro t ht
              have := List.find?_eq_none.mp hf t ht
              simp only [Bool.or_eq_true, decide_eq_true_eq, not_or] at this
              have hcast : ((2 ^ q.numVars : Nat) : Int) = (2 : Int) ^ q.numVars := by
                push_cast; ring
              constructor <;> omega
            have hd : ∀ t ∈ q.dontcares, inRange q.numVars t := by
              intro t ht
              have := List.find?_eq_none.mp hg t ht
              simp only [Bool.or_eq_true, decide_eq_true_eq, not_or] at this
              have hcast : ((2 ^ q.numVars : Nat) : Int) = (2 : Int) ^ q.numVars := by
                push_cast; ring
              constructor <;> omega
            simp only [Prod.fst]
            rw [qmCoverFuel_stable q k hm hd, qmCover]

/-! ### The rendering rule, as the specification words it -/

theorem cover_digits (cover : List Implicant)
    (hnd : (cover.any fun imp =>
      !imp.binary.data.contains '0' && !imp.binary.data.contains '1') = false) :
    ∀ imp ∈ cover, ∃ c ∈ imp.binary.data, c = '0' ∨ c = '1' := by
  intro imp himp
  have := List.any_eq_false.mp hnd imp himp
  rw [Bool.and_eq_true, Bool.not_eq_true', Bool.not_eq_true'] at this
  rw [Decidable.not_and_iff_or_not] at this
  rcases this with h | h
  · have : imp.binary.data.contains '0' = true := by
      cases hc : imp.binary.data.contains '0'
      · exact absurd hc h
      · rfl
    exact ⟨'0', List.elem_iff.mp this, Or.inl rfl⟩
  · have : imp.binary.data.contains '1' = true := by
      cases hc : imp.binary.data.contains '1'
      · exact absurd hc h
      · rfl
    exact ⟨'1', List.elem_iff.mp this, Or.inr rfl⟩

theorem formatSOP_eq_sopTerms (nv : Nat) (cover : List Implicant)
    (hne : cover ≠ [])
    (hlen : ∀ imp ∈ cover, imp.binary.data.length = nv)
    (hnd : (cover.any fun imp =>
      !imp.binary.data.contains '0' && !imp.binary.data.contains '1') = false) :
    formatSOP (varNamesFor nv) cover = sopTerms (varNamesFor nv) cover := by
  have hdig := cover_digits cover hnd
  have hterm : ∀ imp ∈ cover,
      ¬(binaryToTerm (varNamesFor nv) imp.binary).isEmpty = true := by
    intro imp himp
    exact binaryToTerm_ne_empty nv imp (hlen imp himp) (hdig imp himp)
  obtain ⟨imp₀, rest₀, rfl⟩ : ∃ imp₀ rest₀, cover = imp₀ :: rest₀ := by
    cases cover with
    | nil => exact absurd rfl hne
    | cons a l => exact ⟨a, l, rfl⟩
  have hterm₀ : termChars (imp₀.binary.data.zip (varNamesFor nv)) ≠ [] := by
    intro hcontra
    have := hterm imp₀ (List.mem_cons_self _ _)
    rw [String.isEmpty_iff, String.ext_iff] at this
    exact this (by rw [binaryToTerm_data, hcontra])
  have hsopne : (sopTerms (varNamesFor nv) (imp₀ :: rest₀)).data ≠ [] := by
    rw [sopTerms_data _ _ hterm, List.map_cons, binaryToTerm_data]
    exact joinSep_ne_nil _ _ _ hterm₀
  rw [formatSOP, if_neg (by simp), hnd]
  rw [if_neg (by simp), if_neg (by
    rw [String.isEmpty_iff, String.ext_iff]
    intro hcontra
    exact hsopne (by rw [hcontra]))]

theorem termChars_zip_spec (pat : List Char) :
    ∀ (n off : Nat), pat.length = n →
      termChars (pat.zip ((List.range n).map fun i => Char.ofNat (65 + off + i))) =
        ((List.range n).map fun i =>
          if pat[i]? = some '1' then [Char.ofNat (65 + off + i)]
          else if pat[i]? = some '0' then [Char.ofNat (65 + off + i), apos]
          else []).flatten := by
  induction pat with
  | nil =>
      intro n off hn
      rw [← hn]
      rfl
  | cons c pat ih =>
      intro n off hn
      cases n with
      | zero => cases hn
      | succ m =>
          rw [List.range_succ_eq_map, List.map_cons, List.map_cons,
            List.map_map, List.map_map]
          have hf : ((fun i => Char.ofNat (65 + off + i)) ∘ Nat.succ) =
              fun i => Char.ofNat (65 + (off + 1) + i) := by
            funext i
            show Char.ofNat (65 + off + (i + 1)) = Char.ofNat (65 + (off + 1) + i)
            congr 1
            omega
          have hg : ((fun i =>
              if (c :: pat)[i]? = some '1' then [Char.ofNat (65 + off + i)]
              else if (c :: pat)[i]? = some '0' then [Char.ofNat (65 + off + i), apos]
              else []) ∘ Nat.succ) =
              fun i => if pat[i]? = some '1' then [Char.ofNat (65 + (off + 1) + i)]
                else if pat[i]? = some '0' then [Char.ofNat (65 + (off + 1) + i), apos]
                else [] := by
            funext i
            show (if (c :: pat)[i + 1]? = some '1' then [Char.ofNat (65 + off + (i + 1))]
              else if (c :: pat)[i + 1]? = some '0'
                then [Char.ofNat (65 + off + (i + 1)), apos] else []) = _
            rw [List.getElem?_cons_succ,
              show 65 + off + (i + 1) = 65 + (off + 1) + i by omega]
          rw [hf, hg, List.zip_cons_cons]
          have hterm : termChars ((c, Char.ofNat (65 + off + 0)) ::
              pat.zip ((List.range m).map fun i => Char.ofNat (65 + (off + 1) + i))) =
              (if c = '0' then [Char.ofNat (65 + off + 0), apos]
                else if c = '1' then [Char.ofNat (65 + off + 0)] else []) ++
              termChars (pat.zip ((List.range m).map fun i =>
                Char.ofNat (65 + (off + 1) + i))) := rfl
          rw [hterm, ih m (off + 1) (by simpa using hn), List.flatten_cons]
          congr 1
          simp only [List.getElem?_cons_zero]
          by_cases hc0 : c = '0'
          · rw [if_pos hc0, if_neg (by rw [hc0]; decide), if_pos (by rw [hc0])]
          · by_cases hc1 : c = '1'
            · rw [if_neg hc0, if_pos hc1, if_pos (by rw [hc1])]
            · rw [if_neg hc0, if_neg hc1, if_neg (by
                intro hcontra
                exact hc1 (Option.some_inj.mp hcontra)), if_neg (by
                intro hcontra
                exact hc0 (Option.some_inj.mp hcontra))]

theorem specRenderTerm_eq (nv : Nat) (pat : List Char) (hlen : pat.length = nv) :
    termChars (pat.zip (varNamesFor nv)) = specRenderTerm nv pat := by
  have h := termChars_zip_spec pat nv 0 hlen
  have h1 : ((List.range nv).map fun i => Char.ofNat (65 + 0 + i)) = varNamesFor nv := by
    rw [varNamesFor]
  have h2 : ((List.range nv).map fun i =>
      if pat[i]? = some '1' then [Char.ofNat (65 + 0 + i)]
      else if pat[i]? = some '0' then [Char.ofNat (65 + 0 + i), apos]
      else []) = ((List.range nv).map fun i =>
      if pat[i]? = some '1' then [Char.ofNat (65 + i)]
      else if pat[i]? = some '0' then [Char.ofNat (65 + i), apos]
      else []) := rfl
  rw [h1, h2] at h
  rw [h, specRenderTerm]

/-! ### The claims -/

/-- Claim C2, counterexample: the claim says `minimize` fails with
`InvalidVariableCount` iff `numVars` lies outside `[1, 8]`, but the code
only checks the upper bound: for `numVars = 0` (outside `[1, 8]`) the call
succeeds and returns `"0"`. -/
theorem claim_C2_cex :
    (mkQM 0 [] []).numVars < 1 ∧ minimizeResult (mkQM 0 [] []) = .ok "0" :=
  ⟨by decide, rfl⟩

/-- Claim C2, amended: `minimize` fails with the `InvalidVariableCount`
error if and only if `numVars > 8`; the lower bound of the documented
range `[1, 8]` is not checked by `minimize` (only by the out-of-scope CLI
prompt), so no `numVars ≤ 8` triggers this failure.  In particular
`numVars = 9` fails. -/
theorem claim_C2 (q : QM) :
    minimizeResult q = .error .varLimit ↔ 8 < q.numVars :=
  minimize_varLimit_iff q

/-- Claim C3: for valid `numVars`, `minimize` fails with a
`TermOutOfRange` error iff some minterm or don't-care term lies outside
`[0, 2^numVars - 1]`; the failure is atomic — the object state is
returned unchanged and the error carries no partial result. -/
theorem claim_C3 (q : QM) (h1 : 1 ≤ q.numVars) (h8 : q.numVars ≤ 8) :
    ((∃ e, minimizeResult q = .error e ∧ e.isTermRange = true) ↔
      ∃ t, (t ∈ q.minterms ∨ t ∈ q.dontcares) ∧
        (t < 0 ∨ 2 ^ q.numVars - 1 < t)) ∧
    (minimize q).2 = q :=
  ⟨minimize_termRange_iff q h8, minimize_state q⟩

/-- Claim C3, witness: `numVars = 2`, minterm `5` is out of range. -/
theorem claim_C3_witness :
    (1 ≤ (mkQM 2 [5]).numVars ∧ (mkQM 2 [5]).numVars ≤ 8) ∧
    (((∃ e, minimizeResult (mkQM 2 [5]) = .error e ∧ e.isTermRange = true) ↔
      ∃ t, (t ∈ (mkQM 2 [5]).minterms ∨ t ∈ (mkQM 2 [5]).dontcares) ∧
        (t < 0 ∨ 2 ^ (mkQM 2 [5]).numVars - 1 < t)) ∧
    (minimize (mkQM 2 [5])).2 = mkQM 2 [5]) :=
  ⟨⟨by decide, by decide⟩, claim_C3 (mkQM 2 [5]) (by decide) (by decide)⟩

/-- Claim C4: once validation succeeds, `minimize` always terminates with
an `ok` result string; the merge loop needs at most `numVars` merging
rounds (running it with any fuel beyond `numVars + 1` rounds changes
nothing), and there are no failure modes after validation.  (The greedy
cover loop's termination is structural in the embedding: each iteration
erases one remaining prime.) -/
theorem claim_C4 (q : QM) (h1 : 1 ≤ q.numVars) (h8 : q.numVars ≤ 8)
    (hm : ∀ t ∈ q.minterms, inRange q.numVars t)
    (hd : ∀ t ∈ q.dontcares, inRange q.numVars t) :
    (∃ s, minimizeResult q = .ok s) ∧
    ∀ k, minimizeFuelResult (q.numVars + 1 + k) q = minimizeResult q :=
  ⟨⟨_, minimize_ok q h8 hm hd⟩, fun k => minimizeFuel_stable q k⟩

/-- Claim C4, witness: a concrete valid instance. -/
theorem claim_C4_witness :
    ((1 ≤ (mkQM 2 [0, 3]).numVars ∧ (mkQM 2 [0, 3]).numVars ≤ 8) ∧
      (∀ t ∈ (mkQM 2 [0, 3]).minterms, inRange (mkQM 2 [0, 3]).numVars t) ∧
      (∀ t ∈ (mkQM 2 [0, 3]).dontcares, inRange (mkQM 2 [0, 3]).numVars t)) ∧
    ((∃ s, minimizeResult (mkQM 2 [0, 3]) = .ok s) ∧
      ∀ k, minimizeFuelResult ((mkQM 2 [0, 3]).numVars + 1 + k) (mkQM 2 [0, 3]) =
        minimizeResult (mkQM 2 [0, 3])) :=
  ⟨⟨⟨by decide, by decide⟩,
      by intro t ht; fin_cases ht <;> constructor <;> decide,
      by intro t ht; fin_cases ht⟩,
    claim_C4 (mkQM 2 [0, 3]) (by decide) (by decide)
      (by intro t ht; fin_cases ht <;> constructor <;> decide)
      (by intro t ht; fin_cases ht)⟩

/-- Claim C5: an all-`-` implicant in the final cover makes the formatter
output exactly the constant `"1"`; in particular the tautology
`numVars = 2`, `minterms = {0,1,2,3}` minimizes to exactly `"1"`. -/
theorem claim_C5 :
    (∀ (vn : List Char) (cover : List Implicant) (imp : Implicant),
      imp ∈ cover → (∀ c ∈ imp.binary.data, c = '-') →
      formatSOP vn cover = "1") ∧
    minimizeResult (mkQM 2 [0, 1, 2, 3]) = .ok "1" :=
  ⟨fun vn cover imp himp hdash => formatSOP_allDash vn cover imp himp hdash, rfl⟩

/-- Claim C5, witness: a concrete cover holding the all-dash implicant. -/
theorem claim_C5_witness :
    formatSOP ['A', 'B']
      [⟨[0], String.mk ['-', '-'], true, false⟩] = "1" :=
  claim_C5.1 ['A', 'B'] [⟨[0], String.mk ['-', '-'], true, false⟩]
    ⟨[0], String.mk ['-', '-'], true, false⟩ (by decide) (by decide)

/-- Claim C6: an empty final cover makes the formatter output exactly
`"0"`, the empty cover is reachable only when `minterms` is empty (a
non-empty minterm list always yields a non-empty cover), and the
contradiction instance `numVars = 2`, `minterms = {}` minimizes to
exactly `"0"`. -/
theorem claim_C6 (q : QM) (hne : q.minterms ≠ [])
    (hm : ∀ t ∈ q.minterms, inRange q.numVars t)
    (hd : ∀ t ∈ q.dontcares, inRange q.numVars t) :
    (∀ vn : List Char, formatSOP vn [] = "0") ∧
    qmCover q ≠ [] ∧
    minimizeResult (mkQM 2 []) = .ok "0" :=
  ⟨fun vn => formatSOP_nil vn, qmCover_ne_nil q hne hm hd, rfl⟩

/-- Claim C6, witness: a concrete instance with a non-empty minterm
list. -/
theorem claim_C6_witness :
    ((mkQM 2 [0]).minterms ≠ [] ∧
      (∀ t ∈ (mkQM 2 [0]).minterms, inRange (mkQM 2 [0]).numVars t) ∧
      (∀ t ∈ (mkQM 2 [0]).dontcares, inRange (mkQM 2 [0]).numVars t)) ∧
    ((∀ vn : List Char, formatSOP vn [] = "0") ∧
      qmCover (mkQM 2 [0]) ≠ [] ∧
      minimizeResult (mkQM 2 []) = .ok "0") :=
  ⟨⟨by decide,
      by intro t ht; fin_cases ht <;> constructor <;> decide,
      by intro t ht; fin_cases ht⟩,
    claim_C6 (mkQM 2 [0]) (by decide)
      (by intro t ht; fin_cases ht <;> constructor <;> decide)
      (by intro t ht; fin_cases ht)⟩

/-- Claim C7: the don't-care absorption instance `numVars = 3`,
`minterms = {0,2,4,6}`, `dontCares = {1,5}` minimizes to exactly the
single-literal string `C'`, the cover being the single implicant with
pattern `--0`. -/
theorem claim_C7 :
    minimizeResult (mkQM 3 [0, 2, 4, 6] [1, 5]) = .ok (String.mk ['C', apos]) ∧
    (qmCover (mkQM 3 [0, 2, 4, 6] [1, 5])).map (fun imp => imp.binary) =
      [String.mk ['-', '-', '0']] :=
  ⟨rfl, rfl⟩

/-- Claim C9: `minimize` never mutates the instance fields (the embedding
returns the object state, and it is always the unchanged input state, for
any fuel), so calling it twice on the same instance yields the same
result — byte-identical output strings or identical errors. -/
theorem claim_C9 (q : QM) :
    (minimize q).2 = q ∧
    (minimize ((minimize q).2)).1 = (minimize q).1 ∧
    ∀ fuel, (minimizeFuel fuel q).2 = q := by
  refine ⟨minimize_state q, ?_, fun fuel => minimizeFuel_state fuel q⟩
  rw [minimize_state q]

/-- Claim C10: in every round `k` of the merge loop, all implicants
present carry exactly `k` dashes (round 1 of the C++ loop is `k = 0`
here), an implicant's covered-minterm list is exactly the set of input
terms its pattern matches, and whenever `canMerge` accepts a pair of the
round's implicants the single differing position holds `'0'` in one
operand and `'1'` in the other — never a `'-'`. -/
theorem claim_C10 (q : QM)
    (hm : ∀ t ∈ q.minterms, inRange q.numVars t)
    (hd : ∀ t ∈ q.dontcares, inRange q.numVars t) :
    ∀ k, ∀ imp ∈ flatGroups (groupsAt q.numVars (allTermsOf q) k),
      dashCount imp.binary.data = k ∧
      (∀ t : Int, t ∈ imp.minterms ↔
        t ∈ allTermsOf q ∧ imp.covers t q.numVars = true) ∧
      (∀ b ∈ flatGroups (groupsAt q.numVars (allTermsOf q) k),
        canMerge imp b = true →
        ∃ j, j < imp.binary.data.length ∧
          ((imp.binary.data[j]? = some '0' ∧ b.binary.data[j]? = some '1') ∨
           (imp.binary.data[j]? = some '1' ∧ b.binary.data[j]? = some '0')) ∧
          ∀ j', j' ≠ j → imp.binary.data[j']? = b.binary.data[j']?) := by
  intro k imp himp
  have hrange := allTermsOf_range q hm hd
  have hinv := groupsAt_inv q.numVars (allTermsOf q) hrange
  obtain ⟨⟨hlen, hchars, hsub, hcov⟩, hdash⟩ := hinv k imp himp
  refine ⟨hdash, ?_, ?_⟩
  · intro t
    constructor
    · intro ht
      have hall := hsub t ht
      exact ⟨hall, (hcov t (hrange t hall)).mpr ht⟩
    · rintro ⟨hall, hcovt⟩
      exact (hcov t (hrange t hall)).mp hcovt
  · intro b hb hcm
    obtain ⟨⟨hlenb, hcharsb, _, _⟩, hdashb⟩ := hinv k b hb
    obtain ⟨hleneq, hdiff⟩ := canMerge_elim imp b hcm
    exact diffOne_pos imp.binary.data b.binary.data hleneq hdiff
      (hdash.trans hdashb.symm) hchars hcharsb

/-- Claim C10, witness: round 0 of the don't-care absorption instance,
at the implicant created for term 0. -/
theorem claim_C10_witness :
    ((∀ t ∈ (mkQM 3 [0, 2, 4, 6] [1, 5]).minterms,
        inRange (mkQM 3 [0, 2, 4, 6] [1, 5]).numVars t) ∧
      (∀ t ∈ (mkQM 3 [0, 2, 4, 6] [1, 5]).dontcares,
        inRange (mkQM 3 [0, 2, 4, 6] [1, 5]).numVars t)) ∧
    (dashCount (mkImplicant 0 3).binary.data = 0 ∧
      (∀ t : Int, t ∈ (mkImplicant 0 3).minterms ↔
        t ∈ allTermsOf (mkQM 3 [0, 2, 4, 6] [1, 5]) ∧
          (mkImplicant 0 3).covers t (mkQM 3 [0, 2, 4, 6] [1, 5]).numVars = true) ∧
      (∀ b ∈ flatGroups (groupsAt (mkQM 3 [0, 2, 4, 6] [1, 5]).numVars
          (allTermsOf (mkQM 3 [0, 2, 4, 6] [1, 5])) 0),
        canMerge (mkImplicant 0 3) b = true →
        ∃ j, j < (mkImplicant 0 3).binary.data.length ∧
          (((mkImplicant 0 3).binary.data[j]? = some '0' ∧
              b.binary.data[j]? = some '1') ∨
           ((mkImplicant 0 3).binary.data[j]? = some '1' ∧
              b.binary.data[j]? = some '0')) ∧
          ∀ j', j' ≠ j →
            (mkImplicant 0 3).binary.data[j']? = b.binary.data[j']?)) :=
  ⟨⟨by intro t ht; fin_cases ht <;> constructor <;> decide,
      by intro t ht; fin_cases ht <;> constructor <;> decide⟩,
    claim_C10 (mkQM 3 [0, 2, 4, 6] [1, 5])
      (by intro t ht; fin_cases ht <;> constructor <;> decide)
      (by intro t ht; fin_cases ht <;> constructor <;> decide) 0
      (mkImplicant 0 3) (by decide)⟩

/-- Claim C8: in the general branch of the formatter, each cover
implicant is rendered by scanning its pattern left to right — position
`i` (0-based, MSB first) maps to variable letter `'A' + i`, a `'0'` adds
the letter followed by a complement apostrophe, a `'1'` adds the bare
letter, a `'-'` adds nothing — and the rendered terms are joined by the
separator `" + "`.  Position 0 is the most significant bit: bit
`numVars - 1 - j` of the term value appears at string position `j`. -/
theorem claim_C8 (nv : Nat) (cover : List Implicant) (hne : cover ≠ [])
    (hlen : ∀ imp ∈ cover, imp.binary.data.length = nv)
    (hnd : (cover.any fun imp =>
      !imp.binary.data.contains '0' && !imp.binary.data.contains '1') = false) :
    (formatSOP (varNamesFor nv) cover).data =
      joinSep [' ', '+', ' ']
        (cover.map fun imp => specRenderTerm nv imp.binary.data) ∧
    ∀ (t : Int) (j : Nat), j < nv →
      (intToBinary t nv).data[j]? =
        some (if t.toNat.testBit (nv - 1 - j) then '1' else '0') := by
  constructor
  · have hdig := cover_digits cover hnd
    have hterm : ∀ imp ∈ cover,
        ¬(binaryToTerm (varNamesFor nv) imp.binary).isEmpty = true :=
      fun imp h => binaryToTerm_ne_empty nv imp (hlen imp h) (hdig imp h)
    rw [formatSOP_eq_sopTerms nv cover hne hlen hnd, sopTerms_data _ _ hterm]
    congr 1
    refine List.map_congr_left ?_
    intro imp himp
    rw [binaryToTerm_data, specRenderTerm_eq nv imp.binary.data (hlen imp himp)]
  · intro t j hj
    exact intToBinary_getElem t nv j hj

/-- Claim C8, witness: a one-implicant cover with pattern `0-` over two
variables. -/
theorem claim_C8_witness :
    (([⟨[0], String.mk ['0', '-'], true, false⟩] : List Implicant) ≠ [] ∧
      (∀ imp ∈ ([⟨[0], String.mk ['0', '-'], true, false⟩] : List Implicant),
        imp.binary.data.length = 2) ∧
      (([⟨[0], String.mk ['0', '-'], true, false⟩] : List Implicant).any
        (fun imp =>
          !imp.binary.data.contains '0' && !imp.binary.data.contains '1')
        = false)) ∧
    ((formatSOP (varNamesFor 2)
        [⟨[0], String.mk ['0', '-'], true, false⟩]).data =
      joinSep [' ', '+', ' ']
        (([⟨[0], String.mk ['0', '-'], true, false⟩] : List Implicant).map
          fun imp => specRenderTerm 2 imp.binary.data) ∧
    ∀ (t : Int) (j : Nat), j < 2 →
      (intToBinary t 2).data[j]? =
        some (if t.toNat.testBit (2 - 1 - j) then '1' else '0')) :=
  ⟨⟨by decide, by decide, by decide⟩,
    claim_C8 2 [⟨[0], String.mk ['0', '-'], true, false⟩]
      (by decide) (by decide) (by decide)⟩

/-- Claim C1: for every valid instance (variable count in `[1, 8]`, the
standard variable names, all terms in range), `minimize` returns an `ok`
string whose Boolean function agrees exactly with the requested one:
every minterm is covered by some implicant of the final cover, the
string evaluates to true at an input row iff the row is a minterm or a
don't-care absorbed by the cover, and in particular it evaluates to
false at every row that is neither a minterm nor a don't-care. -/
theorem claim_C1 (q : QM) (h1 : 1 ≤ q.numVars) (h8 : q.numVars ≤ 8)
    (hv : q.varNames = varNamesFor q.numVars)
    (hm : ∀ t ∈ q.minterms, inRange q.numVars t)
    (hd : ∀ t ∈ q.dontcares, inRange q.numVars t) :
    ∃ s, minimizeResult q = .ok s ∧
      (∀ m ∈ q.minterms, ∃ i ∈ qmCover q, i.covers m q.numVars = true) ∧
      (∀ t : Int, inRange q.numVars t →
        (sopEval q.numVars s t = true ↔
          t ∈ q.minterms ∨ (t ∈ q.dontcares ∧
            ∃ i ∈ qmCover q, i.covers t q.numVars = true))) ∧
      (∀ t : Int, inRange q.numVars t → t ∉ q.minterms → t ∉ q.dontcares →
        sopEval q.numVars s t = false) := by
  have hgoodc := qmCover_good q hm hd
  have hcovers := qmCover_covers q hm hd
  have hiff : ∀ t : Int, inRange q.numVars t →
      (sopEval q.numVars (formatSOP (varNamesFor q.numVars) (qmCover q)) t = true ↔
        t ∈ q.minterms ∨ (t ∈ q.dontcares ∧
          ∃ i ∈ qmCover q, i.covers t q.numVars = true)) := by
    intro t ht
    by_cases hcve : qmCover q = []
    · rw [hcve, formatSOP_nil]
      rw [show sopEval q.numVars "0" t = false from rfl]
      constructor
      · intro hcontra; cases hcontra
      · rintro (hmt | ⟨_, i, hi, _⟩)
        · obtain ⟨i, hi, _⟩ := hcovers t hmt
          rw [hcve] at hi
          cases hi
        · cases hi
    · by_cases hnd : ((qmCover q).any fun imp =>
          !imp.binary.data.contains '0' && !imp.binary.data.contains '1') = true
      · obtain ⟨imp, himp, hflag⟩ := List.any_eq_true.mp hnd
        rw [Bool.and_eq_true, Bool.not_eq_true', Bool.not_eq_true'] at hflag
        have hdash : ∀ c ∈ imp.binary.data, c = '-' := by
          intro c hcmem
          rcases (hgoodc imp himp).2.1 c hcmem with rfl | rfl | rfl
          · have hc0 : imp.binary.data.contains '0' = true :=
              List.elem_iff.mpr hcmem
            rw [hflag.1] at hc0
            cases hc0
          · have hc1 : imp.binary.data.contains '1' = true :=
              List.elem_iff.mpr hcmem
            rw [hflag.2] at hc1
            cases hc1
          · rfl
        rw [formatSOP_allDash _ _ imp himp hdash]
        rw [show sopEval q.numVars "1" t = true from rfl]
        have hct : imp.covers t q.numVars = true := coversC_all_dash _ _ hdash
        have hmem : t ∈ imp.minterms := ((hgoodc imp himp).2.2.2 t ht).mp hct
        have hall : t ∈ allTermsOf q := (hgoodc imp himp).2.2.1 t hmem
        constructor
        · intro _
          rcases (mem_allTermsOf q t).mp hall with h | h
          · exact Or.inl h
          · exact Or.inr ⟨h, imp, himp, hct⟩
        · intro _
          rfl
      · have hnd' : ((qmCover q).any fun imp =>
            !imp.binary.data.contains '0' && !imp.binary.data.contains '1') = false := by
          cases hc : ((qmCover q).any fun imp =>
              !imp.binary.data.contains '0' && !imp.binary.data.contains '1')
          · rfl
          · exact absurd hc hnd
        have hgood2 : ∀ imp ∈ qmCover q,
            (∀ c ∈ imp.binary.data, validChar c) ∧
              imp.binary.data.length = q.numVars :=
          fun imp h => ⟨(hgoodc imp h).2.1, (hgoodc imp h).1⟩
        rw [formatSOP_eval_general q.numVars t h8 (qmCover q) hcve hgood2 hnd']
        rw [List.any_eq_true]
        constructor
        · rintro ⟨i, hi, hic⟩
          have hmem : t ∈ i.minterms := ((hgoodc i hi).2.2.2 t ht).mp hic
          have hall : t ∈ allTermsOf q := (hgoodc i hi).2.2.1 t hmem
          rcases (mem_allTermsOf q t).mp hall with h | h
          · exact Or.inl h
          · exact Or.inr ⟨h, i, hi, hic⟩
        · rintro (hmt | ⟨_, i, hi, hic⟩)
          · exact hcovers t hmt
          · exact ⟨i, hi, hic⟩
  refine ⟨formatSOP (varNamesFor q.numVars) (qmCover q),
    by rw [minimize_ok q h8 hm hd, hv], hcovers, hiff, ?_⟩
  intro t ht hnm hndc
  cases he : sopEval q.numVars (formatSOP (varNamesFor q.numVars) (qmCover q)) t
  · rfl
  · exfalso
    rcases (hiff t ht).mp he with h | ⟨h, _⟩
    · exact hnm h
    · exact hndc h

/-- Claim C1, witness: the instance `numVars = 2`, `minterms = {0,1,2}`,
no don't-cares. -/
theorem claim_C1_witness :
    (1 ≤ (mkQM 2 [0, 1, 2]).numVars ∧ (mkQM 2 [0, 1, 2]).numVars ≤ 8 ∧
      (mkQM 2 [0, 1, 2]).varNames = varNamesFor (mkQM 2 [0, 1, 2]).numVars ∧
      (∀ t ∈ (mkQM 2 [0, 1, 2]).minterms,
        inRange (mkQM 2 [0, 1, 2]).numVars t) ∧
      (∀ t ∈ (mkQM 2 [0, 1, 2]).dontcares,
        inRange (mkQM 2 [0, 1, 2]).numVars t)) ∧
    (∃ s, minimizeResult (mkQM 2 [0, 1, 2]) = .ok s ∧
      (∀ m ∈ (mkQM 2 [0, 1, 2]).minterms,
        ∃ i ∈ qmCover (mkQM 2 [0, 1, 2]),
          i.covers m (mkQM 2 [0, 1, 2]).numVars = true) ∧
      (∀ t : Int, inRange (mkQM 2 [0, 1, 2]).numVars t →
        (sopEval (mkQM 2 [0, 1, 2]).numVars s t = true ↔
          t ∈ (mkQM 2 [0, 1, 2]).minterms ∨
            (t ∈ (mkQM 2 [0, 1, 2]).dontcares ∧
              ∃ i ∈ qmCover (mkQM 2 [0, 1, 2]),
                i.covers t (mkQM 2 [0, 1, 2]).numVars = true))) ∧
      (∀ t : Int, inRange (mkQM 2 [0, 1, 2]).numVars t →
        t ∉ (mkQM 2 [0, 1, 2]).minterms →
        t ∉ (mkQM 2 [0, 1, 2]).dontcares →
          sopEval (mkQM 2 [0, 1, 2]).numVars s t = false)) :=
  ⟨⟨by decide, by decide, by decide,
      by intro t ht; fin_cases ht <;> constructor <;> decide,
      by intro t ht; fin_cases ht⟩,
    claim_C1 (mkQM 2 [0, 1, 2]) (by decide) (by decide) (by decide)
      (by intro t ht; fin_cases ht <;> constructor <;> decide)
      (by intro t ht; fin_cases ht)⟩
